import Mathlib

/-!
Verification development for the cashflow-forecast repository.

The Python source (src/utils.py, src/view_table.py, src/forecast.py) is
shallowly embedded below:

* the accounts mini-language decoder `split_accounts` (utils.py lines 293-318)
  and the encoder used by the table editor (view_table.py lines 175-189);
* the rrule classifier `parse_rrulestr` (utils.py lines 182-273) together with
  `validate_rrule` (utils.py lines 90-108) over a model of the parsed-rule
  record produced by the external dateutil library;
* the display sort `sort_cfs` (utils.py lines 335-344);
* the forecast engine `generate_forecast` (utils.py lines 377-427).

Modelling conventions: calendar dates are integers (ordinal days); Python
numbers are `PyNum` (an `int` or a `float`), with float arithmetic modelled
exactly over `ℚ`; Python functions that swallow exceptions are total, and
functions that may raise return `Option`.  The numeric string parsers model
Python `int()`/`float()` on whitespace-free ASCII strings, including the
optional sign, underscore digit-group separators, and (for `float`) the
decimal point and signed exponent.  Declared boundaries of the numeric
model: CPython additionally transliterates non-ASCII Unicode decimal
digits, which this ASCII development omits; `int()`/`float()` strip
surrounding Python whitespace, which cannot occur in amounts cut out of
`str.split()` tokens; `float()` accepts `inf`/`nan` spellings and overflows
to `inf`, both outside the exact-rational convention (the decoder reaches
`float()` only for amounts containing `.`, which no `inf`/`nan` spelling
does).  Python float formatting is modelled as `repr`: fixed-point with the
trailing zero trimmed below magnitude `1e16`, scientific notation for the
integer-valued floats at or above `1e16` that are exact decimals.
-/

unseal Rat.mul Rat.inv Rat.add Rat.sub

/-- Whitespace characters recognised by Python `str.split()` and stripped by
`int()`/`float()`: the Py_UNICODE_ISSPACE set — ASCII whitespace, the four
information-separator controls, next-line, no-break space, and the Unicode
space separators. -/
def pyIsSpace (c : Char) : Bool :=
  decide ((9 ≤ c.toNat ∧ c.toNat ≤ 13) ∨ (28 ≤ c.toNat ∧ c.toNat ≤ 32) ∨ c.toNat = 0x85 ∨
    c.toNat = 0xA0 ∨ c.toNat = 0x1680 ∨ (0x2000 ≤ c.toNat ∧ c.toNat ≤ 0x200A) ∨
    c.toNat = 0x2028 ∨ c.toNat = 0x2029 ∨ c.toNat = 0x202F ∨ c.toNat = 0x205F ∨
    c.toNat = 0x3000)

/-- Helper for `pyTokens`: scans the characters, accumulating the current
(reversed) word, and splits at whitespace runs. -/
def wordsAux : List Char → List Char → List (List Char)
  | [], [] => []
  | [], acc => [acc.reverse]
  | c :: cs, acc =>
    if pyIsSpace c then
      (if acc.isEmpty then wordsAux cs [] else acc.reverse :: wordsAux cs [])
    else wordsAux cs (c :: acc)

/-- Model of Python `str.split()` with no argument: whitespace-separated
tokens, empty tokens discarded. -/
def pyTokens (s : String) : List (List Char) := wordsAux s.data []

/-- Model of Python `str.split(sep)` for a single-character separator: splits
at every occurrence, keeping empty segments. -/
def splitAllOn (sep : Char) (l : List Char) : List (List Char) := go l []
where
  go : List Char → List Char → List (List Char)
    | [], acc => [acc.reverse]
    | c :: cs, acc => if c = sep then acc.reverse :: go cs [] else go cs (c :: acc)

/-- Numeric value of an ASCII digit character. -/
def charDigit (c : Char) : ℕ := c.toNat - 48

/-- Most-significant-digit-first accumulation of a digit string. -/
def digitsValAux (acc : ℕ) : List Char → ℕ
  | [] => acc
  | c :: cs => digitsValAux (10 * acc + charDigit c) cs

/-- Tail of an underscore-separated digit run: after a digit, the run may
end, continue with a digit, or continue with an underscore that must be
followed by a digit (Python allows `_` in numeric strings only between two
digits). -/
def digitRunTail : List Char → Bool
  | [] => true
  | [c] => !(c == '_') && c.isDigit
  | c :: d :: ds =>
    if c = '_' then d.isDigit && digitRunTail ds
    else c.isDigit && digitRunTail (d :: ds)

/-- A nonempty underscore-separated digit run, `digit (digit | "_" digit)*`:
the digit-sequence grammar shared by Python `int()` and `float()`. -/
def isDigitRun : List Char → Bool
  | [] => false
  | c :: cs => c.isDigit && digitRunTail cs

/-- Drops the underscore digit-group separators before valuation. -/
def stripUnderscores (l : List Char) : List Char := l.filter (fun c => !(c == '_'))

/-- Value of an underscore-separated digit run; `none` otherwise. -/
def digitsVal (l : List Char) : Option ℕ :=
  if isDigitRun l then some (digitsValAux 0 (stripUnderscores l)) else none

/-- Model of Python `int(str)` on whitespace-free ASCII strings: an optional
sign followed by an underscore-separated digit run. -/
def pyIntVal : List Char → Option ℤ
  | [] => none
  | c :: rest =>
    if c = '+' then (digitsVal rest).map Int.ofNat
    else if c = '-' then (digitsVal rest).map (fun n => -(n : ℤ))
    else (digitsVal (c :: rest)).map Int.ofNat

/-- Unsigned value of the point-split parts of a float mantissa: `digits`,
`digits.`, `.digits` or `digits.digits`, each digit group an
underscore-separated run; more than one point fails. -/
def pyFloatParts : List (List Char) → Option ℚ
  | [i] => (digitsVal i).map (fun n => (n : ℚ))
  | [i, f] =>
    if i = [] then
      (digitsVal f).map (fun n => (n : ℚ) / ((10 ^ (stripUnderscores f).length : ℕ) : ℚ))
    else if f = [] then (digitsVal i).map (fun n => (n : ℚ))
    else
      match digitsVal i, digitsVal f with
      | some a, some b =>
        some ((a : ℚ) + (b : ℚ) / ((10 ^ (stripUnderscores f).length : ℕ) : ℚ))
      | _, _ => none
  | _ => none

/-- Mantissa of a float literal: the value read off the parts split at the
decimal point. -/
def mantissaVal (m : List Char) : Option ℚ := pyFloatParts (splitAllOn '.' m)

/-- The exponent markers of a float literal. -/
def isExpChar (c : Char) : Bool := c == 'e' || c == 'E'

/-- Applies a decimal exponent to a mantissa value. -/
def applyExp (q : ℚ) (z : ℤ) : ℚ :=
  if 0 ≤ z then q * ((10 ^ z.toNat : ℕ) : ℚ) else q / ((10 ^ (-z).toNat : ℕ) : ℚ)

/-- Body of a float literal after the sign: a mantissa with at most one
point, optionally followed by `e`/`E` and a signed exponent digit run. -/
def floatBodyVal (l : List Char) : Option ℚ :=
  match l.dropWhile (fun c => !isExpChar c) with
  | [] => mantissaVal l
  | _ :: e =>
    match mantissaVal (l.takeWhile (fun c => !isExpChar c)), pyIntVal e with
    | some q, some z => some (applyExp q z)
    | _, _ => none

/-- Model of Python `float(str)` on whitespace-free ASCII strings: an
optional sign followed by a float-literal body. -/
def pyFloatVal : List Char → Option ℚ
  | [] => none
  | c :: r =>
    if c = '+' then floatBodyVal r
    else if c = '-' then (floatBodyVal r).map Neg.neg
    else floatBodyVal (c :: r)

/-- Round-half-to-even on rationals, modelling Python `round` / numpy
rounding of the exact decimal values arising here. -/
def roundHalfEven (q : ℚ) : ℤ :=
  let f := ⌊q⌋
  if q - f < 1 / 2 then f
  else if (1 : ℚ) / 2 < q - f then f + 1
  else if f % 2 = 0 then f else f + 1

/-- Rounding to two decimal places, as in `round(x, 2)` and `DataFrame.round(2)`. -/
def round2 (q : ℚ) : ℚ := (roundHalfEven (q * 100) : ℚ) / 100

/-- A Python number as stored in the accounts mapping: `int(amt)` for
point-free amounts, `round(float(amt), 2)` for amounts with a point. -/
inductive PyNum where
  | pint (z : ℤ)
  | pfloat (q : ℚ)
deriving DecidableEq

/-- Numeric value of a `PyNum` (Python `==` compares `int` and `float`
numerically). -/
def PyNum.val : PyNum → ℚ
  | .pint z => (z : ℚ)
  | .pfloat q => q

/-- Reserved column names rejected as account names (utils.py line 309). -/
def reservedNames : List String := ["desc", "accounts", "activity", "date", "sum"]

/-- Splitting one token at its sign, as in utils.py lines 302-308: split on
every `+` if a `+` is present (exactly two parts required), otherwise on
every `-` re-prepending the minus to the amount; a token with neither sign,
or with the wrong number of parts, fails. -/
def splitSign (tok : List Char) : Option (List Char × List Char) :=
  if tok.contains '+' then
    match splitAllOn '+' tok with
    | [name, amt] => some (name, amt)
    | _ => none
  else if tok.contains '-' then
    match splitAllOn '-' tok with
    | [name, amt] => some (name, '-' :: amt)
    | _ => none
  else none

/-- Amount parsing, utils.py lines 312-315: a point selects `float` with
rounding to two decimals, otherwise `int`. -/
def parseAmt (amt : List Char) : Option PyNum :=
  if amt.contains '.' then (pyFloatVal amt).map (fun q => PyNum.pfloat (round2 q))
  else (pyIntVal amt).map PyNum.pint

/-- One iteration of the `split_accounts` loop body (utils.py lines 301-317);
`none` models the paths that make the whole call return the empty dict. -/
def saStep (ret : List (String × PyNum)) (tok : List Char) : Option (List (String × PyNum)) :=
  match splitSign tok with
  | none => none
  | some (nm, amt) =>
    let nameS : String := ⟨nm⟩
    if ret.any (fun p => p.1 = nameS) || reservedNames.contains nameS then none
    else
      match parseAmt amt with
      | none => none
      | some v => some (ret ++ [(nameS, v)])

/-- The `split_accounts` loop over all tokens. -/
def saLoop (ret : List (String × PyNum)) : List (List Char) → Option (List (String × PyNum))
  | [] => some ret
  | t :: ts =>
    match saStep ret t with
    | none => none
    | some r2 => saLoop r2 ts

/-- Embedding of `split_accounts` (utils.py lines 293-318): decodes the
accounts mini-language into an insertion-ordered association list, returning
the empty list on any malformed token, duplicate name, or reserved name. -/
def split_accounts (s : String) : List (String × PyNum) :=
  (saLoop [] (pyTokens s)).getD []

/-- Decimal digit character for a value below ten. -/
def digitChar (d : ℕ) : Char := Char.ofNat (48 + d)

/-- Little-endian base-10 digits, computed with structural fuel so that the
kernel can evaluate it; agrees with `Nat.digits 10` when the fuel suffices. -/
def natDigitsAux : ℕ → ℕ → List ℕ
  | 0, _ => []
  | fuel + 1, n => if n = 0 then [] else n % 10 :: natDigitsAux fuel (n / 10)

/-- Decimal character representation of a natural number (model of Python
`str`-formatting of a nonnegative integer). -/
def natToChars (n : ℕ) : List Char :=
  if n = 0 then ['0'] else ((natDigitsAux n n).map digitChar).reverse

/-- Fractional digits of `n` hundredths printed by Python float repr:
trailing zeros trimmed, at least one digit kept. -/
def fracChars (n : ℕ) : List Char :=
  let r := n % 100
  if r = 0 then ['0']
  else if r % 10 = 0 then [digitChar (r / 10)]
  else [digitChar (r / 10), digitChar (r % 10)]

/-- Factors out trailing powers of ten: `factorOut10 fuel n = (m, k)` with
`n = m * 10 ^ k` and `m` not a multiple of ten, when the fuel suffices. -/
def factorOut10 : ℕ → ℕ → ℕ × ℕ
  | 0, n => (n, 0)
  | fuel + 1, n =>
    if n % 10 = 0 ∧ n ≠ 0 then
      let p := factorOut10 fuel (n / 10)
      (p.1, p.2 + 1)
    else (n, 0)

/-- Scientific-notation characters `d[.ddd]e+EE` built from the significant
digits and the count of factored-out trailing zeros. -/
def sciOfDigits (ds : List Char) (k : ℕ) : List Char :=
  match ds with
  | [] => []
  | d :: rest =>
    if rest = [] then d :: 'e' :: '+' :: natToChars k
    else d :: '.' :: rest ++ 'e' :: '+' :: natToChars (rest.length + k)

/-- Python float repr of a positive integer-valued float at or above `1e16`:
normalised scientific notation with an explicit positive exponent
(`repr(1e16)` is `1e+16`). -/
def sciChars (n : ℕ) : List Char :=
  sciOfDigits (natToChars (factorOut10 n n).1) (factorOut10 n n).2

/-- Characters of `f-string` formatting `{amt:+}` (view_table.py line 179)
for the numbers produced by `split_accounts`: an explicit sign, then the
decimal representation.  Python `int` formatting is always fixed-point;
float formatting follows `repr`, which stays in fixed-point with the
trailing zero trimmed below magnitude `1e16` and switches to scientific
notation at `1e16` (modelled for the integer-valued floats that are exact
decimals at such magnitudes). -/
def formatAmtChars : PyNum → List Char
  | .pint z => (if z < 0 then ['-'] else ['+']) ++ natToChars z.natAbs
  | .pfloat q =>
    if q.den = 1 ∧ 10 ^ 16 ≤ q.num.natAbs then
      (if q < 0 then ['-'] else ['+']) ++ sciChars q.num.natAbs
    else
      let n := (q * 100).num.natAbs
      (if q < 0 then ['-'] else ['+']) ++ natToChars (n / 100) ++ '.' :: fracChars n

/-- Space-joined concatenation, as in `" ".join(...)`. -/
def joinSpaceChars : List (List Char) → List Char
  | [] => []
  | [t] => t
  | t :: t2 :: ts => t ++ ' ' :: joinSpaceChars (t2 :: ts)

/-- Embedding of the accounts encoder (view_table.py lines 178-180):
`" ".join(f"{name}{amt:+}" for name, amt in accs.items())`. -/
def encodeAccounts (m : List (String × PyNum)) : String :=
  ⟨joinSpaceChars (m.map (fun p => p.1.data ++ formatAmtChars p.2))⟩

example : split_accounts "checking+1 savings-2" =
    [("checking", PyNum.pint 1), ("savings", PyNum.pint (-2))] := by decide
example : split_accounts "a+-2.5" = [("a", PyNum.pfloat (-(5 / 2)))] := by decide
example : split_accounts "a6+-++7.$" = [] := by decide
example : split_accounts "checking+5 checking+5" = [] := by decide
example : split_accounts "" = [] := by decide
example : encodeAccounts [("a", PyNum.pfloat (5 / 2)), ("b", PyNum.pint (-3))] = "a+2.5 b-3" := by
  decide
example : split_accounts "x+1.10" = [("x", PyNum.pfloat (11 / 10))] := by decide
example : split_accounts "a+1.5e2" = [("a", PyNum.pfloat 150)] := by decide
example : split_accounts "a+1_0" = [("a", PyNum.pint 10)] := by decide
example : split_accounts "a+1e+16" = [] := by decide
example : split_accounts "a\xa0b+5" = [] := by decide
example : pyFloatVal "1_.5".data = none := by decide
example : pyFloatVal "1.2.3".data = none := by decide
example : pyFloatVal "1.5e-2".data = some (3 / 200) := by decide
example : encodeAccounts [("a", PyNum.pfloat 10000000000000000)] = "a+1e+16" := by decide

/-- Spec-side definition (following the words of spec §4.1, for comparison
with the code's behaviour): a sign character of the mini-language grammar. -/
def specSignChar (c : Char) : Bool := c == '+' || c == '-'

/-- Spec-side definition: `<digits>` of the mini-language grammar, one or
more ASCII decimal digits. -/
def specDigits (l : List Char) : Bool := !l.isEmpty && l.all Char.isDigit

/-- Spec-side definition: the amount part of a grammatical token, `<digits>`
or `<digits>.<digits>`. -/
def specAmtOk (l : List Char) : Bool :=
  specDigits l ||
    (match splitAllOn '.' l with
     | [i, f] => specDigits i && specDigits f
     | _ => false)

/-- Spec-side definition: a token of the mini-language grammar,
`<name><sign><digits>` or `<name><sign><digits>.<digits>`, where the sign
is exactly one of `+`/`-` and appears exactly once. -/
def specTokenOk (t : String) : Bool :=
  ((t.data.filter specSignChar).length == 1) &&
    specAmtOk ((t.data.dropWhile (fun c => !specSignChar c)).tail)

example : specTokenOk "checking+5" = true := by decide
example : specTokenOk "a-2.50" = true := by decide
example : specTokenOk "a+1.5e2" = false := by decide
example : specTokenOk "a+1_0" = false := by decide

/-- Membership test of a pattern at the head of a character list. -/
def startsSeq : List Char → List Char → Bool
  | [], _ => true
  | _ :: _, [] => false
  | a :: as, b :: bs => a == b && startsSeq as bs

/-- Model of the Python `in` substring test on character lists. -/
def containsSeq (pat : List Char) : List Char → Bool
  | [] => pat.isEmpty
  | c :: rest => startsSeq pat (c :: rest) || containsSeq pat rest

/-- Model of Python `str.endswith`. -/
def strEndsWith (s t : String) : Bool := startsSeq t.data.reverse s.data.reverse

/-- Model of Python `str.removesuffix`: drops the suffix when it is nonempty
and present, otherwise returns the string unchanged. -/
def pyRemovesuffix (s t : String) : String :=
  if !t.data.isEmpty && strEndsWith s t then ⟨s.data.take (s.data.length - t.data.length)⟩
  else s

/-- One row of the entries DataFrame handed to `generate_forecast`.  The
`date` field models the DataFrame column of occurrence-date lists that
`generate_forecast` writes into the frame in place (utils.py line 383);
`none` means the column is absent. -/
structure Entry where
  desc : String
  accounts : String
  dtstart : Int
  rrule : String
  date : Option (List Int)
deriving DecidableEq

/-- One exploded occurrence row: `(desc, accounts, date)` after
`explode("date")` and the `notna` filter (utils.py lines 387-388). -/
structure XRow where
  desc : String
  accounts : String
  date : Int
deriving DecidableEq

/-- Signed delta of account `a` in one row, with a missing account
contributing `0` (the `fillna(0)` of utils.py line 418). -/
def rowDelta (r : XRow) (a : String) : ℚ :=
  match (split_accounts r.accounts).find? (fun p => p.1 == a) with
  | some p => p.2.val
  | none => 0

/-- Sum of the deltas of account `a` over a list of rows. -/
def sumDeltas (l : List XRow) (a : String) : ℚ := (l.map (fun r => rowDelta r a)).sum

/-- Comparison by occurrence date, the key of `sort_index()` (utils.py
line 419). -/
def dateLe (r s : XRow) : Prop := r.date ≤ s.date

instance : DecidableRel dateLe := fun r s => Int.decLe r.date s.date

instance : IsTotal XRow dateLe := ⟨fun a b => Int.le_total a.date b.date⟩

instance : IsTrans XRow dateLe := ⟨fun _ _ _ h1 h2 => le_trans h1 h2⟩

/-- Sorting the exploded rows by date (`sort_index()`); within one date the
resulting cumulative row and activity string do not depend on the order, so a
stable sort is a faithful model. -/
def sortRows (rows : List XRow) : List XRow := List.insertionSort dateLe rows

/-- Per-row cumulative sums (`cumsum()`, utils.py line 420): each row is
paired with the function giving, per account, the running total through it. -/
def cumAux (acc : String → ℚ) : List XRow → List (Int × (String → ℚ))
  | [] => []
  | r :: rs => (r.date, fun a => acc a + rowDelta r a) :: cumAux (fun a => acc a + rowDelta r a) rs

/-- Model of `drop_duplicates(subset="date", keep="last")` (utils.py
line 422): a row survives exactly when no later row has the same date. -/
def dropDupKeepLast {β : Type} : List (Int × β) → List (Int × β)
  | [] => []
  | x :: xs => if xs.any (fun y => y.1 == x.1) then dropDupKeepLast xs else x :: dropDupKeepLast xs

/-- The ledger fold of utils.py lines 414-425: decode each row, fill missing
accounts with 0, sort by date, take running sums, keep the last row per date,
then round every cell to two decimals. -/
def ledgerOf (rows : List XRow) : List (Int × (String → ℚ)) :=
  (dropDupKeepLast (cumAux (fun _ => 0) (sortRows rows))).map
    (fun p => (p.1, fun a => round2 (p.2 a)))

/-- The activity column (utils.py lines 409-411): group rows by date and join
the per-row strings `desc ++ ": " ++ accounts` with `"; "`. -/
def activityFor (rows : List XRow) (d : Int) : String :=
  String.intercalate "; "
    ((rows.filter (fun r => r.date == d)).map (fun r => r.desc ++ ": " ++ r.accounts))

/-- Whether a row is an override row (utils.py lines 392-393). -/
def isOv (r : XRow) : Bool := strEndsWith r.desc "_override"

/-- The regular (non-override) rows. -/
def regularRows (rows : List XRow) : List XRow := rows.filter (fun r => !isOv r)

/-- The override rows. -/
def ovRows (rows : List XRow) : List XRow := rows.filter isOv

/-- An override row re-labelled with the stripped base desc (utils.py
line 396). -/
def stripOv (o : XRow) : XRow := { o with desc := pyRemovesuffix o.desc "_override" }

/-- One step of `process_override` (utils.py lines 395-403): drop from the
surviving regular rows every row matching the override on (desc, date), and
append the re-labelled override row to the contributing list. -/
def ovStep (st : List XRow × List XRow) (o : XRow) : List XRow × List XRow :=
  let o2 := stripOv o
  (st.1.filter (fun r => !(r.desc == o2.desc && r.date == o2.date)), st.2 ++ [o2])

/-- Override resolution (utils.py lines 390-405): the surviving regular rows
followed by the processed override rows. -/
def resolveOverrides (rows : List XRow) : List XRow :=
  let st := (ovRows rows).foldl ovStep (regularRows rows, [])
  st.1 ++ st.2

/-- A regular row is matched (and hence removed) when some override strips to
its desc on its date. -/
def matchedBy (ovs : List XRow) (r : XRow) : Bool :=
  ovs.any (fun o => r.desc == (stripOv o).desc && r.date == o.date)

/-- Explosion of the dated entries into one row per occurrence (utils.py
lines 387-388); an entry with an empty occurrence list contributes nothing. -/
def explodeRows (cfs1 : List Entry) : List XRow :=
  cfs1.foldr (fun e acc => ((e.date.getD []).map (fun d => XRow.mk e.desc e.accounts d)) ++ acc) []

/-- Embedding of `generate_forecast` (utils.py lines 377-427), parameterised
by the external occurrence source `occ` (`generate_occurences`, a dateutil
call).  The first component is the input frame after the in-place write of
the `date` column (line 383); the second is the output ledger: for each date,
the rounded cumulative per-account balances and the activity string. -/
def generate_forecast (occ : Entry → List Int) (cfs : List Entry) :
    List Entry × List (Int × (String → ℚ) × String) :=
  let cfs1 := cfs.map (fun e => { e with date := some (occ e) })
  let resolved := resolveOverrides (explodeRows cfs1)
  (cfs1, (ledgerOf resolved).map (fun p => (p.1, p.2, activityFor resolved p.1)))

/-- The resolved occurrence rows a forecast computation works from: the
exploded dated rows after override resolution. -/
def forecastRows (occ : Entry → List Int) (cfs : List Entry) : List XRow :=
  resolveOverrides (explodeRows (cfs.map (fun e => { e with date := some (occ e) })))

lemma generate_forecast_snd (occ : Entry → List Int) (cfs : List Entry) :
    (generate_forecast occ cfs).2 = (ledgerOf (forecastRows occ cfs)).map
      (fun p => (p.1, p.2, activityFor (forecastRows occ cfs) p.1)) := rfl

/-- Recurrence frequencies, as in `dateutil.rrule` (utils.py restricts the
representable subset to the first four). -/
inductive Freq where
  | yearly | monthly | weekly | daily | hourly | minutely | secondly
deriving DecidableEq

/-- Frequencies finer than monthly; for these dateutil discards the ordinal
of a `BYDAY` entry and keeps only the weekday. -/
def freqAboveMonthly : Freq → Bool
  | .yearly => false
  | .monthly => false
  | _ => true

/-- The `RruleType` enum of utils.py lines 35-42. -/
inductive RruleType where
  | DAILY | BYWEEKDAY_WEEKLY | BYWEEKDAY_MONTHLY | BYWEEKDAY_YEARLY
  | BYMONTHDAY_MONTHLY | BYMONTHDAY_YEARLY | ADVANCED
deriving DecidableEq

/-- Raw RRULE parameters as read from the string, before the constructor
normalisation.  `byday` entries are (optional ordinal, weekday number).
Modelled from the single-rule part of `dateutil.rrule.rrulestr` (an external
library): uppercase parameter names, `UNTIL` accepted but not interpreted,
sub-day `BY*` lists parsed and ignored. -/
structure RawFields where
  freq : Option Freq
  interval : Option ℤ
  count : Option ℤ
  untilGiven : Bool
  wkst : Option ℕ
  bysetpos : List ℤ
  byyearday : List ℤ
  byweekno : List ℤ
  bymonth : List ℤ
  bymonthday : List ℤ
  byday : List (Option ℤ × ℕ)
  byeaster : List ℤ
deriving DecidableEq

/-- Empty parameter record. -/
def initRawFields : RawFields := ⟨none, none, none, false, none, [], [], [], [], [], [], []⟩

/-- Frequency names accepted by the parser. -/
def freqOf (v : List Char) : Option Freq :=
  let s : String := ⟨v⟩
  if s = "YEARLY" then some .yearly
  else if s = "MONTHLY" then some .monthly
  else if s = "WEEKLY" then some .weekly
  else if s = "DAILY" then some .daily
  else if s = "HOURLY" then some .hourly
  else if s = "MINUTELY" then some .minutely
  else if s = "SECONDLY" then some .secondly
  else none

/-- Two-letter weekday codes, `MO = 0` through `SU = 6`. -/
def weekdayNum (v : List Char) : Option ℕ :=
  let s : String := ⟨v⟩
  if s = "MO" then some 0
  else if s = "TU" then some 1
  else if s = "WE" then some 2
  else if s = "TH" then some 3
  else if s = "FR" then some 4
  else if s = "SA" then some 5
  else if s = "SU" then some 6
  else none

/-- Comma-separated integer list value. -/
def parseIntList (v : List Char) : Option (List ℤ) := (splitAllOn ',' v).mapM pyIntVal

/-- One `BYDAY` entry: an optional signed ordinal prefix (which may not be 0)
followed by a weekday code. -/
def parseBydayEntry (e : List Char) : Option (Option ℤ × ℕ) :=
  let isOrdChar : Char → Bool := fun c => c.isDigit || c = '+' || c = '-'
  match weekdayNum (e.dropWhile isOrdChar) with
  | none => none
  | some w =>
    let pre := e.takeWhile isOrdChar
    if pre.isEmpty then some (none, w)
    else
      match pyIntVal pre with
      | none => none
      | some z => if z = 0 then none else some (some z, w)

/-- Dispatch of one `NAME=VALUE` parameter onto the record; unknown names
fail, like the `ValueError` of the dateutil parser. -/
def applyParam (f : RawFields) (name value : List Char) : Option RawFields :=
  let nm : String := ⟨name⟩
  if nm = "FREQ" then (freqOf value).map (fun fr => { f with freq := some fr })
  else if nm = "INTERVAL" then (pyIntVal value).map (fun z => { f with interval := some z })
  else if nm = "COUNT" then (pyIntVal value).map (fun z => { f with count := some z })
  else if nm = "UNTIL" then some { f with untilGiven := true }
  else if nm = "WKST" then (weekdayNum value).map (fun w => { f with wkst := some w })
  else if nm = "BYSETPOS" then (parseIntList value).map (fun l => { f with bysetpos := l })
  else if nm = "BYMONTH" then (parseIntList value).map (fun l => { f with bymonth := l })
  else if nm = "BYMONTHDAY" then (parseIntList value).map (fun l => { f with bymonthday := l })
  else if nm = "BYYEARDAY" then (parseIntList value).map (fun l => { f with byyearday := l })
  else if nm = "BYWEEKNO" then (parseIntList value).map (fun l => { f with byweekno := l })
  else if nm = "BYEASTER" then (parseIntList value).map (fun l => { f with byeaster := l })
  else if nm = "BYHOUR" ∨ nm = "BYMINUTE" ∨ nm = "BYSECOND" then
    (parseIntList value).map (fun _ => f)
  else if nm = "BYDAY" ∨ nm = "BYWEEKDAY" then
    ((splitAllOn ',' value).mapM parseBydayEntry).map (fun l => { f with byday := l })
  else none

/-- Parsing of a single-line RRULE content string into its raw parameters:
semicolon-separated `NAME=VALUE` pairs. -/
def parseRruleFields (s : String) : Option RawFields :=
  (splitAllOn ';' s.data).foldlM
    (fun f part =>
      match splitAllOn '=' part with
      | [name, value] => applyParam f name value
      | _ => none)
    initRawFields

/-- Sorted duplicate-free copy of an integer list (dateutil stores the `BY*`
collections as sorted tuples of a set). -/
def sortDedup (l : List ℤ) : List ℤ := (List.insertionSort (fun a b => a ≤ b) l).dedup

/-- Sorted duplicate-free copy of a weekday list. -/
def sortDedupNat (l : List ℕ) : List ℕ := (List.insertionSort (fun a b => a ≤ b) l).dedup

/-- The normalised rule record, mirroring the `_`-prefixed attributes of a
constructed `dateutil.rrule.rrule` that utils.py reads: `wkst` is a weekday
number (0 when defaulted), `byweekday` holds plain weekdays, `bynweekday`
ordinal weekdays, `bymonthday`/`bynmonthday` the positive/negative
month days. -/
structure ParsedRrule where
  freq : Freq
  interval : ℤ
  count : Option ℤ
  wkst : ℕ
  bysetpos : List ℤ
  byyearday : List ℤ
  byweekno : List ℤ
  bymonth : List ℤ
  byweekday : List ℕ
  bynweekday : List (ℕ × ℤ)
  bymonthday : List ℤ
  bynmonthday : List ℤ
deriving DecidableEq

/-- Model of the `dateutil.rrule.rrule` constructor normalisation (an
external library): reject invalid `BYSETPOS`, apply the frequency-dependent
defaults from the start date `(dtM, dtD, dtW)` (month, day, weekday — the
source calls `rrulestr` without `dtstart`, so these model "today"), split
`BYDAY` into plain and ordinal weekdays, and split `BYMONTHDAY` by sign. -/
def buildRrule (f : RawFields) (dtM dtD dtW : ℕ) : Option ParsedRrule :=
  match f.freq with
  | none => none
  | some fr =>
    if f.bysetpos.any (fun p => p = 0 ∨ p < -366 ∨ 366 < p) then none
    else
      let noBy := f.byweekno = [] ∧ f.byyearday = [] ∧ f.bymonthday = [] ∧
        f.byday = [] ∧ f.byeaster = []
      let bymonth0 := if noBy ∧ fr = .yearly ∧ f.bymonth = [] then [(dtM : ℤ)] else f.bymonth
      let bymonthday0 :=
        if noBy ∧ (fr = .yearly ∨ fr = .monthly) then [(dtD : ℤ)] else f.bymonthday
      let byday0 := if noBy ∧ fr = .weekly then [((none : Option ℤ), dtW)] else f.byday
      some
        { freq := fr
          interval := f.interval.getD 1
          count := f.count
          wkst := f.wkst.getD 0
          bysetpos := sortDedup f.bysetpos
          byyearday := sortDedup f.byyearday
          byweekno := sortDedup f.byweekno
          bymonth := sortDedup bymonth0
          byweekday := sortDedupNat (byday0.filterMap
            (fun e => if e.1 = none ∨ freqAboveMonthly fr then some e.2 else none))
          bynweekday := (byday0.filterMap
            (fun e =>
              match e.1 with
              | some z => if freqAboveMonthly fr then none else some (e.2, z)
              | none => none)).dedup
          bymonthday := sortDedup (bymonthday0.filter (fun z => decide (0 < z)))
          bynmonthday := sortDedup (bymonthday0.filter (fun z => decide (z < 0))) }

/-- Membership in `BYMONTHDAY_MONTHLY_CHOICES` (constants.py lines 18-21):
the strings of 1..28, -1 and -2. -/
def mdayChoiceOk (z : ℤ) : Prop := (1 ≤ z ∧ z ≤ 28) ∨ z = -1 ∨ z = -2

instance : DecidablePred mdayChoiceOk := fun z => by unfold mdayChoiceOk; infer_instance

/-- Membership in `BYWEEKDAY_ORD_CHOICES` (constants.py lines 10-17):
the strings of 1..4, -1 and -2. -/
def ordChoiceOk (z : ℤ) : Prop := (1 ≤ z ∧ z ≤ 4) ∨ z = -1 ∨ z = -2

instance : DecidablePred ordChoiceOk := fun z => by unfold ordChoiceOk; infer_instance

/-- The classifier body of `parse_rrulestr` (utils.py lines 187-273),
translated branch by branch over the constructed rule record (the
`rruleset` branch of lines 184-185 is outside this single-rule model).
Python truthiness of the `_`-attributes is nonemptiness of the lists and
nonzeroness of `_wkst`. -/
def classifyRrule (r : ParsedRrule) : RruleType :=
  if r.wkst ≠ 0 ∨ r.bysetpos ≠ [] ∨ r.byyearday ≠ [] ∨ r.byweekno ≠ [] then .ADVANCED
  else if r.freq = .daily then
    if r.byweekday ≠ [] ∨ r.bynweekday ≠ [] ∨ r.bymonthday ≠ [] ∨ r.bynmonthday ≠ [] ∨
        r.bymonth ≠ [] then .ADVANCED
    else .DAILY
  else if r.freq = .weekly then
    if r.byweekday = [] ∨ r.bynweekday ≠ [] ∨ r.bymonthday ≠ [] ∨ r.bynmonthday ≠ [] ∨
        r.bymonth ≠ [] then .ADVANCED
    else .BYWEEKDAY_WEEKLY
  else if r.freq = .monthly then
    if r.byweekday ≠ [] ∨ r.bymonth ≠ [] then .ADVANCED
    else if r.bymonthday ≠ [] ∨ r.bynmonthday ≠ [] then
      if r.bynweekday ≠ [] ∨
          (r.bymonthday ≠ [] ∧ (r.bymonthday.length > 1 ∨ ¬ mdayChoiceOk (r.bymonthday.headD 0))) ∨
          (r.bynmonthday ≠ [] ∧
            (r.bynmonthday.length > 1 ∨ ¬ mdayChoiceOk (r.bynmonthday.headD 0))) then .ADVANCED
      else .BYMONTHDAY_MONTHLY
    else if r.bynweekday ≠ [] then
      if r.bynweekday.length > 1 ∨ ¬ ordChoiceOk ((r.bynweekday.headD (0, 0)).2) then .ADVANCED
      else .BYWEEKDAY_MONTHLY
    else .ADVANCED
  else
    if r.byweekday ≠ [] ∨ r.bynmonthday ≠ [] ∨ r.bymonth = [] ∨ r.bymonth.length > 1 then
      .ADVANCED
    else if r.bymonthday ≠ [] then
      if r.bymonthday.length > 1 ∨ r.bynweekday ≠ [] then .ADVANCED
      else .BYMONTHDAY_YEARLY
    else if r.bynweekday ≠ [] then
      if r.bynweekday.length > 1 then .ADVANCED
      else .BYWEEKDAY_WEEKLY
    else .ADVANCED

/-- Embedding of `parse_rrulestr` (utils.py lines 182-273) over the model
parser: `none` at the outer level models a raised `ValueError`; inside, the
pair is `(rrule object or None, classification)` with `None` exactly on the
`ADVANCED` returns. -/
def parse_rrulestr (s : String) (dtM dtD dtW : ℕ) :
    Option (Option ParsedRrule × RruleType) :=
  ((parseRruleFields s).bind (fun f => buildRrule f dtM dtD dtW)).map
    (fun p =>
      match classifyRrule p with
      | .ADVANCED => (none, .ADVANCED)
      | t => (some p, t))

/-- The substrings rejected up front by `validate_rrule` (utils.py
lines 95-102). -/
def invalidSubstrs : List String :=
  ["FREQ=SECONDLY", "FREQ=MINUTELY", "FREQ=HOURLY", "BYHOUR=", "BYMINUTE=", "BYSECOND="]

/-- Embedding of `validate_rrule` (utils.py lines 90-108): `none` for a valid
string, otherwise the error message. -/
def validate_rrule (s : Option String) : Option String :=
  match s with
  | none => some "Required"
  | some s =>
    if invalidSubstrs.any (fun t => containsSeq t.data s.data) then some "invalid rrulestr"
    else
      match parseRruleFields s with
      | none => some "invalid rrulestr"
      | some f =>
        if f.byeaster ≠ [] then some "invalid rrulestr"
        else
          match buildRrule f 1 1 0 with
          | none => some "invalid rrulestr"
          | some _ => none

example : (parse_rrulestr "FREQ=YEARLY;BYMONTH=6;BYDAY=2FR" 1 1 0).map Prod.snd =
    some RruleType.BYWEEKDAY_WEEKLY := by decide
example : parse_rrulestr "FREQ=SECONDLY" 1 1 0 = some (none, RruleType.ADVANCED) := by decide
example : validate_rrule (some "FREQ=SECONDLY") = some "invalid rrulestr" := by decide
example : validate_rrule (some "FREQ=DAILY;COUNT=1") = none := by decide
example : (parse_rrulestr "FREQ=DAILY;COUNT=1" 1 1 0).map Prod.snd =
    some RruleType.DAILY := by decide
example : (parse_rrulestr "FREQ=WEEKLY;INTERVAL=2;BYDAY=FR" 1 1 0).map Prod.snd =
    some RruleType.BYWEEKDAY_WEEKLY := by decide
example : (parse_rrulestr "FREQ=MONTHLY;BYMONTHDAY=20" 1 1 0).map Prod.snd =
    some RruleType.BYMONTHDAY_MONTHLY := by decide
example : (parse_rrulestr "FREQ=MONTHLY;BYDAY=2FR" 1 1 0).map Prod.snd =
    some RruleType.BYWEEKDAY_MONTHLY := by decide
example : (parse_rrulestr "FREQ=YEARLY;BYMONTH=6;BYMONTHDAY=24" 1 1 0).map Prod.snd =
    some RruleType.BYMONTHDAY_YEARLY := by decide
example : (parse_rrulestr "FREQ=YEARLY" 6 24 1).map Prod.snd =
    some RruleType.BYMONTHDAY_YEARLY := by decide
example : (parse_rrulestr "FREQ=DAILY;BYSETPOS=2" 1 1 0).map Prod.snd =
    some RruleType.ADVANCED := by decide
example : parse_rrulestr "garbage" 1 1 0 = none := by decide

/-- Lexicographic comparison of character lists by code point, modelling the
string order pandas uses in `sort_values`. -/
def charListLe : List Char → List Char → Bool
  | [], _ => true
  | _ :: _, [] => false
  | a :: as, b :: bs => a.toNat < b.toNat || (a.toNat == b.toNat && charListLe as bs)

/-- The sort key of `sort_cfs` (utils.py lines 340-342): descs equal to
`"balance"` (case-sensitively) are prefixed with a NUL character. -/
def sortKey (d : String) : List Char :=
  if d = "balance" then Char.ofNat 0 :: d.data else d.data

/-- Order on entries induced by the `sort_cfs` key. -/
def entryLe (a b : Entry) : Prop := charListLe (sortKey a.desc) (sortKey b.desc) = true

instance : DecidableRel entryLe := fun _ _ => instDecidableEqBool _ _

/-- Embedding of `sort_cfs` (utils.py lines 335-344), with a stable sort. -/
def sort_cfs (cfs : List Entry) : List Entry := List.insertionSort entryLe cfs

/-- ASCII lower-casing of a character (model of `str.lower` on the ASCII
descs at issue). -/
def charLowerAscii (c : Char) : Char :=
  if 65 ≤ c.toNat ∧ c.toNat ≤ 90 then Char.ofNat (c.toNat + 32) else c

/-- ASCII lower-casing of a string. -/
def strLowerAscii (s : String) : String := ⟨s.data.map charLowerAscii⟩

/-- The name a token decodes to, when its sign split succeeds. -/
def tokName (t : List Char) : Option String := (splitSign t).map (fun p => (⟨p.1⟩ : String))

lemma splitAllOn_go_no_sep (sep : Char) :
    ∀ l acc, sep ∉ l → splitAllOn.go sep l acc = [acc.reverse ++ l] := by
  intro l
  induction l with
  | nil => intro acc _; simp [splitAllOn.go]
  | cons c cs ih =>
    intro acc h
    have hc : ¬ c = sep := fun he => h (he ▸ List.mem_cons_self c cs)
    have hcs : sep ∉ cs := fun hm => h (List.mem_cons_of_mem c hm)
    simp only [splitAllOn.go, if_neg hc, ih (c :: acc) hcs, List.reverse_cons,
      List.append_assoc, List.cons_append, List.nil_append]

lemma splitAllOn_no_sep {sep : Char} {l : List Char} (h : sep ∉ l) :
    splitAllOn sep l = [l] := by
  simpa using splitAllOn_go_no_sep sep l [] h

lemma splitAllOn_go_append (sep : Char) :
    ∀ a acc b, sep ∉ a →
      splitAllOn.go sep (a ++ sep :: b) acc = (acc.reverse ++ a) :: splitAllOn.go sep b [] := by
  intro a
  induction a with
  | nil => intro acc b _; simp [splitAllOn.go]
  | cons c cs ih =>
    intro acc b h
    have hc : ¬ c = sep := fun he => h (he ▸ List.mem_cons_self c cs)
    have hcs : sep ∉ cs := fun hm => h (List.mem_cons_of_mem c hm)
    show splitAllOn.go sep (c :: (cs ++ sep :: b)) acc = _
    rw [splitAllOn.go, if_neg hc, ih (c :: acc) b hcs]
    simp

lemma splitAllOn_pair {sep : Char} {a b : List Char} (ha : sep ∉ a) (hb : sep ∉ b) :
    splitAllOn sep (a ++ sep :: b) = [a, b] := by
  simp [splitAllOn, splitAllOn_go_append sep a [] b ha, splitAllOn_go_no_sep sep b [] hb]

lemma pyIsSpace_space : pyIsSpace ' ' = true := by decide

lemma wordsAux_no_space :
    ∀ l acc, (∀ c ∈ l, pyIsSpace c = false) →
      wordsAux l acc = if acc = [] ∧ l = [] then [] else [acc.reverse ++ l] := by
  intro l
  induction l with
  | nil => intro acc _; cases acc <;> simp [wordsAux]
  | cons c cs ih =>
    intro acc h
    have hc : pyIsSpace c = false := h c (List.mem_cons_self c cs)
    have hcs : ∀ x ∈ cs, pyIsSpace x = false := fun x hx => h x (List.mem_cons_of_mem c hx)
    simp only [wordsAux, hc, Bool.false_eq_true, if_false, ih (c :: acc) hcs,
      List.reverse_cons, List.append_assoc, List.cons_append, List.nil_append]
    simp

lemma wordsAux_word_space :
    ∀ w acc rest, (∀ c ∈ w, pyIsSpace c = false) → (acc ≠ [] ∨ w ≠ []) →
      wordsAux (w ++ ' ' :: rest) acc = (acc.reverse ++ w) :: wordsAux rest [] := by
  intro w
  induction w with
  | nil =>
    intro acc rest _ hne
    have hacc : acc ≠ [] := hne.resolve_right (fun h => h rfl)
    have : acc.isEmpty = false := by
      cases acc with
      | nil => exact absurd rfl hacc
      | cons a as => rfl
    simp [wordsAux, pyIsSpace_space, this]
  | cons c cs ih =>
    intro acc rest h _
    have hc : pyIsSpace c = false := h c (List.mem_cons_self c cs)
    have hcs : ∀ x ∈ cs, pyIsSpace x = false := fun x hx => h x (List.mem_cons_of_mem c hx)
    show wordsAux (c :: (cs ++ ' ' :: rest)) acc = _
    rw [wordsAux, if_neg (by simp [hc]), ih (c :: acc) rest hcs (Or.inl (by simp))]
    simp

lemma pyTokens_join :
    ∀ parts : List (List Char),
      (∀ p ∈ parts, p ≠ [] ∧ ∀ c ∈ p, pyIsSpace c = false) →
      wordsAux (joinSpaceChars parts) [] = parts := by
  intro parts
  induction parts with
  | nil => intro _; simp [joinSpaceChars, wordsAux]
  | cons p rest ih =>
    intro h
    obtain ⟨hp, hpc⟩ := h p (List.mem_cons_self p rest)
    cases rest with
    | nil =>
      simp only [joinSpaceChars]
      rw [wordsAux_no_space p [] hpc]
      simp [hp]
    | cons p2 ps =>
      simp only [joinSpaceChars]
      rw [wordsAux_word_space p [] (joinSpaceChars (p2 :: ps)) hpc (Or.inr hp)]
      simp only [List.reverse_nil, List.nil_append, List.cons.injEq, true_and]
      exact ih (fun q hq => h q (List.mem_cons_of_mem p hq))

lemma saStep_some {ret r : List (String × PyNum)} {tok : List Char}
    (h : saStep ret tok = some r) :
    ∃ nm amt v, splitSign tok = some (nm, amt) ∧ parseAmt amt = some v ∧
      ret.any (fun p => p.1 = (⟨nm⟩ : String)) = false ∧
      reservedNames.contains (⟨nm⟩ : String) = false ∧
      r = ret ++ [((⟨nm⟩ : String), v)] := by
  unfold saStep at h
  cases hs : splitSign tok with
  | none => rw [hs] at h; cases h
  | some p =>
    obtain ⟨nm, amt⟩ := p
    rw [hs] at h
    simp only at h
    by_cases hg : (ret.any (fun p => p.1 = (⟨nm⟩ : String)) ||
        reservedNames.contains (⟨nm⟩ : String)) = true
    · rw [if_pos hg] at h; cases h
    · rw [if_neg hg] at h
      rw [Bool.or_eq_true, not_or] at hg
      cases hp : parseAmt amt with
      | none => rw [hp] at h; cases h
      | some v =>
        rw [hp] at h
        exact ⟨nm, amt, v, rfl, hp, Bool.not_eq_true _ ▸ hg.1, Bool.not_eq_true _ ▸ hg.2,
          (Option.some_injective _ h).symm⟩

lemma saLoop_sound :
    ∀ ts ret r, saLoop ret ts = some r →
      r.length = ret.length + ts.length ∧
      (∀ t ∈ ts, ∃ nm amt v, splitSign t = some (nm, amt) ∧ parseAmt amt = some v ∧
        reservedNames.contains (⟨nm⟩ : String) = false) ∧
      r.map Prod.fst = ret.map Prod.fst ++ ts.filterMap tokName ∧
      ((ret.map Prod.fst).Nodup → (r.map Prod.fst).Nodup) := by
  intro ts
  induction ts with
  | nil =>
    intro ret r h
    simp only [saLoop] at h
    cases h
    simp
  | cons t ts ih =>
    intro ret r h
    simp only [saLoop] at h
    cases hst : saStep ret t with
    | none => rw [hst] at h; cases h
    | some r2 =>
      rw [hst] at h
      obtain ⟨hlen, hall, hmap, hnd⟩ := ih r2 r h
      obtain ⟨nm, amt, v, hsp, hpa, hany, hres, hr2⟩ := saStep_some hst
      subst hr2
      refine ⟨?_, ?_, ?_, ?_⟩
      · simp at hlen
        simp [hlen]
        omega
      · intro u hu
        rcases List.mem_cons.mp hu with rfl | hu2
        · exact ⟨nm, amt, v, hsp, hpa, hres⟩
        · exact hall u hu2
      · rw [hmap]
        simp [tokName, hsp, List.filterMap_cons]
      · intro hnodup
        apply hnd
        simp only [List.map_append, List.map_cons, List.map_nil]
        rw [List.nodup_append]
        refine ⟨hnodup, List.nodup_singleton _, ?_⟩
        intro a ha hb
        simp only [List.mem_singleton] at hb
        subst hb
        have : ret.any (fun p => p.1 = (⟨nm⟩ : String)) = true := by
          rw [List.any_eq_true]
          obtain ⟨p, hp, hp1⟩ := List.mem_map.mp ha
          exact ⟨p, hp, by simp [hp1]⟩
        rw [this] at hany
        cases hany

/-- C3 (amended): `split_accounts` is total (the embedding returns a value
for every string, modelling the `noexcept` contract) and either fails to
the empty mapping or returns exactly one entry per whitespace token;
whenever it succeeds with a nonempty mapping, every token split at its
sign, every amount parsed, no name was reserved and no name was duplicated
— so any token the decoder cannot parse, any duplicate name, or any
reserved name forces the empty mapping, never a partial one; in particular
on `""`, `"a6+-++7.$"` and `"checking+5 checking+5"` it returns the empty
mapping.  Amount acceptance is that of Python `float()`/`int()`, which is
strictly broader than the spec's mini-language grammar — see the
counterexample theorem below. -/
theorem split_accounts_failure_policy (s : String) :
    (split_accounts s = [] ∨ (split_accounts s).length = (pyTokens s).length)
    ∧ (split_accounts s ≠ [] →
        (∀ t ∈ pyTokens s, ∃ nm amt v, splitSign t = some (nm, amt) ∧ parseAmt amt = some v ∧
          reservedNames.contains (⟨nm⟩ : String) = false)
        ∧ ((pyTokens s).filterMap tokName).Nodup)
    ∧ split_accounts "" = [] ∧ split_accounts "a6+-++7.$" = []
    ∧ split_accounts "checking+5 checking+5" = [] := by
  refine ⟨?_, ?_, by decide, by decide, by decide⟩
  · cases h : saLoop [] (pyTokens s) with
    | none => left; simp [split_accounts, h]
    | some r =>
      right
      obtain ⟨hlen, _, _, _⟩ := saLoop_sound (pyTokens s) [] r h
      simp only [split_accounts, h, Option.getD_some]
      simpa using hlen
  · intro hne
    cases h : saLoop [] (pyTokens s) with
    | none => exact absurd (by simp [split_accounts, h]) hne
    | some r =>
      obtain ⟨_, hall, hmap, hnd⟩ := saLoop_sound (pyTokens s) [] r h
      refine ⟨hall, ?_⟩
      have : (r.map Prod.fst).Nodup := hnd (by simp)
      rw [hmap] at this
      simpa using this

/-- C3 witness: a concrete successful decode exercising the success branch
of the failure-policy theorem. -/
theorem split_accounts_failure_policy_witness :
    split_accounts "a+1 b-2" ≠ [] ∧ ((pyTokens "a+1 b-2").filterMap tokName).Nodup :=
  ⟨by decide, ((split_accounts_failure_policy "a+1 b-2").2.1 (by decide)).2⟩

/-- C3 (counterexample to the grammar clause): the specification's
mini-language grammar (`specTokenOk`, defined from the spec's words)
rejects the tokens `a+1.5e2` (exponent) and `a+1_0` (underscore
separator), yet the decoder — whose amount parsing is Python
`float()`/`int()` — accepts both and returns non-empty mappings, so a
token that is malformed under the mini-language grammar does not force the
empty mapping. -/
theorem split_accounts_beyond_grammar :
    specTokenOk "a+1.5e2" = false ∧
    split_accounts "a+1.5e2" = [("a", PyNum.pfloat 150)] ∧
    specTokenOk "a+1_0" = false ∧
    split_accounts "a+1_0" = [("a", PyNum.pint 10)] := by decide

lemma string_eta (s : String) : (⟨s.data⟩ : String) = s := by cases s; rfl

lemma isDigit_toNat {c : Char} (h : c.isDigit = true) : 48 ≤ c.toNat ∧ c.toNat ≤ 57 := by
  simp only [Char.isDigit, decide_eq_true_eq, Bool.and_eq_true] at h
  obtain ⟨h1, h2⟩ := h
  exact ⟨h1, h2⟩

lemma isDigit_not_space {c : Char} (h : c.isDigit = true) : pyIsSpace c = false := by
  obtain ⟨h1, h2⟩ := isDigit_toNat h
  simp only [pyIsSpace, decide_eq_false_iff_not]
  omega

lemma isDigit_ne_signs {c : Char} (h : c.isDigit = true) : c ≠ '+' ∧ c ≠ '-' ∧ c ≠ '.' := by
  refine ⟨?_, ?_, ?_⟩ <;> rintro rfl <;> exact absurd h (by decide)

lemma isDigit_ne_underscore {c : Char} (h : c.isDigit = true) : c ≠ '_' := by
  rintro rfl; exact absurd h (by decide)

lemma isDigit_not_exp {c : Char} (h : c.isDigit = true) : isExpChar c = false := by
  simp only [isExpChar, Bool.or_eq_false_iff, beq_eq_false_iff_ne, ne_eq]
  constructor <;> rintro rfl <;> exact absurd h (by decide)

lemma digitRunTail_one (c : Char) : digitRunTail [c] = (!(c == '_') && c.isDigit) := rfl

lemma digitRunTail_two (c d : Char) (ds : List Char) :
    digitRunTail (c :: d :: ds) =
      if c = '_' then d.isDigit && digitRunTail ds
      else c.isDigit && digitRunTail (d :: ds) := rfl

lemma digitRunTail_all_digit : ∀ l : List Char, (∀ c ∈ l, c.isDigit = true) →
    digitRunTail l = true := by
  intro l
  induction l with
  | nil => intro _; rfl
  | cons c cs ih =>
    intro h
    have hc := h c (List.mem_cons_self c cs)
    have hcu := isDigit_ne_underscore hc
    cases cs with
    | nil =>
      rw [digitRunTail_one, hc]
      simp [hcu]
    | cons d ds =>
      rw [digitRunTail_two, if_neg hcu, hc, ih (fun x hx => h x (List.mem_cons_of_mem c hx))]
      rfl

lemma strip_all_digit {l : List Char} (h : ∀ c ∈ l, c.isDigit = true) :
    stripUnderscores l = l := by
  rw [stripUnderscores, List.filter_eq_self]
  intro c hc
  simp [isDigit_ne_underscore (h c hc)]

lemma digitsVal_all_digit {l : List Char} (hne : l ≠ []) (h : ∀ c ∈ l, c.isDigit = true) :
    digitsVal l = some (digitsValAux 0 l) := by
  have hrun : isDigitRun l = true := by
    cases l with
    | nil => exact absurd rfl hne
    | cons c cs =>
      show (c.isDigit && digitRunTail cs) = true
      rw [h c (List.mem_cons_self c cs),
        digitRunTail_all_digit cs (fun x hx => h x (List.mem_cons_of_mem c hx))]
      rfl
  rw [digitsVal, if_pos hrun, strip_all_digit h]

lemma takeWhile_all {p : Char → Bool} : ∀ {l : List Char}, (∀ c ∈ l, p c = true) →
    l.takeWhile p = l ∧ l.dropWhile p = [] := by
  intro l
  induction l with
  | nil => intro _; exact ⟨rfl, rfl⟩
  | cons c cs ih =>
    intro h
    have hc := h c (List.mem_cons_self c cs)
    obtain ⟨h1, h2⟩ := ih (fun x hx => h x (List.mem_cons_of_mem c hx))
    rw [List.takeWhile_cons, List.dropWhile_cons, hc]
    simp [h1, h2]


/-- Validity of an amount for the encoder round trip: any integer, or a float
with at most two decimal places. -/
def validPyNum : PyNum → Prop
  | .pint _ => True
  | .pfloat q => (q * 100).den = 1

instance : ∀ v, Decidable (validPyNum v) := fun v =>
  match v with
  | .pint _ => .isTrue trivial
  | .pfloat q => inferInstanceAs (Decidable ((q * 100).den = 1))

/-- Magnitude bound below which Python float `repr`/formatting stays in
fixed-point notation (`repr` switches to scientific notation at `1e16`;
`int` formatting has no such switch). -/
def fixedRange : PyNum → Prop
  | .pint _ => True
  | .pfloat q => -(10 ^ 16) < q ∧ q < 10 ^ 16

instance : ∀ v, Decidable (fixedRange v) := fun v =>
  match v with
  | .pint _ => .isTrue trivial
  | .pfloat q => inferInstanceAs (Decidable (-(10 ^ 16 : ℚ) < q ∧ q < 10 ^ 16))

lemma natDigitsAux_eq_digits : ∀ fuel n, n ≤ fuel → natDigitsAux fuel n = Nat.digits 10 n := by
  intro fuel
  induction fuel with
  | zero =>
    intro n hn
    interval_cases n
    simp [natDigitsAux]
  | succ fuel ih =>
    intro n hn
    by_cases h0 : n = 0
    · subst h0; simp [natDigitsAux]
    · rw [natDigitsAux, if_neg h0, Nat.digits_def' (by norm_num : 1 < 10) (Nat.pos_of_ne_zero h0),
        ih (n / 10) ?_]
      have : n / 10 < n := Nat.div_lt_self (Nat.pos_of_ne_zero h0) (by norm_num)
      omega

lemma digitChar_isDigit {d : ℕ} (h : d < 10) : (digitChar d).isDigit = true := by
  interval_cases d <;> decide

lemma charDigit_digitChar {d : ℕ} (h : d < 10) : charDigit (digitChar d) = d := by
  interval_cases d <;> decide

lemma natToChars_all_digit (n : ℕ) : ∀ c ∈ natToChars n, c.isDigit = true := by
  intro c hc
  rw [natToChars] at hc
  by_cases h0 : n = 0
  · rw [if_pos h0] at hc
    simp only [List.mem_singleton] at hc
    subst hc; decide
  · rw [if_neg h0, natDigitsAux_eq_digits n n le_rfl, List.mem_reverse] at hc
    obtain ⟨d, hd, rfl⟩ := List.mem_map.mp hc
    exact digitChar_isDigit (Nat.digits_lt_base (by norm_num) hd)

lemma natToChars_ne_nil (n : ℕ) : natToChars n ≠ [] := by
  rw [natToChars]
  by_cases h0 : n = 0
  · simp [h0]
  · rw [if_neg h0, natDigitsAux_eq_digits n n le_rfl]
    simp [Nat.digits_ne_nil_iff_ne_zero, h0]

lemma digitsValAux_nil (acc : ℕ) : digitsValAux acc [] = acc := rfl

lemma digitsValAux_cons (acc : ℕ) (c : Char) (cs : List Char) :
    digitsValAux acc (c :: cs) = digitsValAux (10 * acc + charDigit c) cs := rfl

lemma digitsValAux_append (l1 l2 : List Char) :
    ∀ acc, digitsValAux acc (l1 ++ l2) = digitsValAux (digitsValAux acc l1) l2 := by
  induction l1 with
  | nil => intro acc; rw [List.nil_append, digitsValAux_nil]
  | cons c cs ih => intro acc; rw [List.cons_append, digitsValAux_cons, digitsValAux_cons, ih]

lemma digitsValAux_rev_map :
    ∀ ds : List ℕ, (∀ d ∈ ds, d < 10) → ∀ acc,
      digitsValAux acc ((ds.map digitChar).reverse) = acc * 10 ^ ds.length + Nat.ofDigits 10 ds := by
  intro ds
  induction ds with
  | nil =>
    intro _ acc
    rw [List.map_nil, List.reverse_nil, Nat.ofDigits_nil, digitsValAux_nil]
    simp
  | cons d ds ih =>
    intro h acc
    have hd : d < 10 := h d (List.mem_cons_self d ds)
    have hds : ∀ x ∈ ds, x < 10 := fun x hx => h x (List.mem_cons_of_mem d hx)
    rw [List.map_cons, List.reverse_cons, digitsValAux_append, ih hds acc,
      digitsValAux_cons, digitsValAux_nil, charDigit_digitChar hd, Nat.ofDigits_cons,
      List.length_cons]
    ring

lemma digitsValAux_natToChars (n : ℕ) : digitsValAux 0 (natToChars n) = n := by
  by_cases h0 : n = 0
  · subst h0; decide
  · rw [natToChars, if_neg h0, natDigitsAux_eq_digits n n le_rfl,
      digitsValAux_rev_map _ (fun d hd => Nat.digits_lt_base (by norm_num) hd) 0]
    simp [Nat.ofDigits_digits]

lemma digitsVal_natToChars (n : ℕ) : digitsVal (natToChars n) = some n := by
  rw [digitsVal_all_digit (natToChars_ne_nil n) (natToChars_all_digit n),
    digitsValAux_natToChars]

lemma pyIntVal_natToChars (n : ℕ) : pyIntVal (natToChars n) = some (n : ℤ) := by
  cases h : natToChars n with
  | nil => exact absurd h (natToChars_ne_nil n)
  | cons c cs =>
    have hc : c.isDigit = true := natToChars_all_digit n c (h ▸ List.mem_cons_self c cs)
    rw [pyIntVal, if_neg (isDigit_ne_signs hc).1, if_neg (isDigit_ne_signs hc).2.1, ← h,
      digitsVal_natToChars]
    rfl

lemma pyIntVal_neg_natToChars (n : ℕ) :
    pyIntVal ('-' :: natToChars n) = some (-(n : ℤ)) := by
  rw [pyIntVal, if_neg (by decide), if_pos rfl, digitsVal_natToChars]
  rfl

lemma round2_of_den_one {q : ℚ} (h : (q * 100).den = 1) : round2 q = q := by
  have hk : ((q * 100).num : ℚ) = q * 100 := by
    conv_rhs => rw [← Rat.num_div_den (q * 100)]
    rw [h]
    simp
  have hfloor : ⌊q * 100⌋ = (q * 100).num := by
    conv_lhs => rw [← hk]
    exact Int.floor_intCast _
  have hcond : q * 100 - ((q * 100).num : ℚ) < 1 / 2 := by rw [hk]; norm_num
  have hre : roundHalfEven (q * 100) = (q * 100).num := by
    rw [roundHalfEven]
    simp only [hfloor]
    rw [if_pos hcond]
  rw [round2, hre, hk, mul_div_assoc]
  norm_num

lemma den_one_cast {q : ℚ} (h : (q * 100).den = 1) : (((q * 100).num : ℚ)) = q * 100 := by
  conv_rhs => rw [← Rat.num_div_den (q * 100)]
  rw [h]
  simp

lemma fracChars_all_digit (n : ℕ) : ∀ c ∈ fracChars n, c.isDigit = true := by
  intro c hc
  have hr : n % 100 < 100 := Nat.mod_lt _ (by norm_num)
  simp only [fracChars] at hc
  by_cases h0 : n % 100 = 0
  · rw [if_pos h0] at hc
    simp only [List.mem_singleton] at hc
    subst hc; decide
  · rw [if_neg h0] at hc
    by_cases h10 : n % 100 % 10 = 0
    · rw [if_pos h10] at hc
      simp only [List.mem_singleton] at hc
      subst hc
      exact digitChar_isDigit (by omega)
    · rw [if_neg h10] at hc
      rcases List.mem_cons.mp hc with rfl | hc
      · exact digitChar_isDigit (by omega)
      · simp only [List.mem_singleton] at hc
        subst hc
        exact digitChar_isDigit (by omega)

lemma fracChars_ne_nil (n : ℕ) : fracChars n ≠ [] := by
  simp only [fracChars]
  by_cases h0 : n % 100 = 0
  · simp [h0]
  · rw [if_neg h0]
    by_cases h10 : n % 100 % 10 = 0 <;> simp [h10]

lemma floatCharsVal (n : ℕ) :
    (digitsValAux 0 (natToChars (n / 100)) : ℚ) +
      (digitsValAux 0 (fracChars n) : ℚ) / ((10 ^ (fracChars n).length : ℕ) : ℚ) =
      (n : ℚ) / 100 := by
  rw [digitsValAux_natToChars]
  simp only [fracChars]
  by_cases h0 : n % 100 = 0
  · rw [if_pos h0]
    have h1 : digitsValAux 0 ['0'] = 0 := by decide
    rw [h1]
    have hn : (n : ℚ) = 100 * ((n / 100 : ℕ) : ℚ) := by
      have : 100 * (n / 100) = n := by omega
      exact_mod_cast this.symm
    rw [hn]
    push_cast
    ring
  · rw [if_neg h0]
    by_cases h10 : n % 100 % 10 = 0
    · rw [if_pos h10]
      have hd : n % 100 / 10 < 10 := by
        have : n % 100 < 100 := Nat.mod_lt _ (by norm_num)
        omega
      have h1 : digitsValAux 0 [digitChar (n % 100 / 10)] = n % 100 / 10 := by
        rw [digitsValAux_cons, digitsValAux_nil, charDigit_digitChar hd]
        ring
      rw [h1]
      have hn : (n : ℚ) = 100 * ((n / 100 : ℕ) : ℚ) + 10 * ((n % 100 / 10 : ℕ) : ℚ) := by
        have : 100 * (n / 100) + 10 * (n % 100 / 10) = n := by omega
        exact_mod_cast this.symm
      rw [hn]
      push_cast
      field_simp
      ring
    · rw [if_neg h10]
      have hlt : n % 100 < 100 := Nat.mod_lt _ (by norm_num)
      have hd1 : n % 100 / 10 < 10 := by omega
      have hd2 : n % 100 % 10 < 10 := by omega
      have h1 : digitsValAux 0 [digitChar (n % 100 / 10), digitChar (n % 100 % 10)] =
          10 * (n % 100 / 10) + n % 100 % 10 := by
        rw [digitsValAux_cons, digitsValAux_cons, digitsValAux_nil, charDigit_digitChar hd1,
          charDigit_digitChar hd2]
        ring
      rw [h1]
      have hn : (n : ℚ) = 100 * ((n / 100 : ℕ) : ℚ) +
          ((10 * (n % 100 / 10) + n % 100 % 10 : ℕ) : ℚ) := by
        have : 100 * (n / 100) + (10 * (n % 100 / 10) + n % 100 % 10) = n := by omega
        exact_mod_cast this.symm
      rw [hn]
      push_cast
      field_simp
      ring

lemma floatBody_no_exp {l : List Char} (h : ∀ c ∈ l, isExpChar c = false) :
    floatBodyVal l = mantissaVal l := by
  have h2 : ∀ c ∈ l, (!isExpChar c) = true := fun c hc => by rw [h c hc]; rfl
  obtain ⟨_, hdrop⟩ := takeWhile_all h2
  simp only [floatBodyVal]
  rw [hdrop]

lemma pyFloatParts_pair {i f : List Char} (hi : ∀ c ∈ i, c.isDigit = true)
    (hf : ∀ c ∈ f, c.isDigit = true) (hne : i ≠ []) (hfne : f ≠ []) :
    pyFloatParts [i, f] =
      some ((digitsValAux 0 i : ℚ) + (digitsValAux 0 f : ℚ) / ((10 ^ f.length : ℕ) : ℚ)) := by
  rw [pyFloatParts, if_neg hne, if_neg hfne, digitsVal_all_digit hne hi,
    digitsVal_all_digit hfne hf, strip_all_digit hf]

lemma pyFloatVal_app {i f : List Char} (hi : ∀ c ∈ i, c.isDigit = true)
    (hf : ∀ c ∈ f, c.isDigit = true) (hne : i ≠ []) (hfne : f ≠ []) :
    pyFloatVal (i ++ '.' :: f) =
      some ((digitsValAux 0 i : ℚ) + (digitsValAux 0 f : ℚ) / ((10 ^ f.length : ℕ) : ℚ)) := by
  obtain ⟨c, cs, rfl⟩ : ∃ c cs, i = c :: cs := by
    cases i with
    | nil => exact absurd rfl hne
    | cons c cs => exact ⟨c, cs, rfl⟩
  have hc := hi c (List.mem_cons_self c cs)
  have hnoexp : ∀ x ∈ c :: (cs ++ '.' :: f), isExpChar x = false := by
    intro x hx
    rcases List.mem_cons.mp hx with rfl | hx
    · exact isDigit_not_exp hc
    · rcases List.mem_append.mp hx with h | h
      · exact isDigit_not_exp (hi x (List.mem_cons_of_mem c h))
      · rcases List.mem_cons.mp h with rfl | h
        · decide
        · exact isDigit_not_exp (hf x h)
  have hdi : '.' ∉ c :: cs := fun h => (isDigit_ne_signs (hi _ h)).2.2 rfl
  have hdf : '.' ∉ f := fun h => (isDigit_ne_signs (hf _ h)).2.2 rfl
  have hpair : splitAllOn '.' (c :: (cs ++ '.' :: f)) = [c :: cs, f] := by
    have hsp := splitAllOn_pair hdi hdf
    simpa using hsp
  rw [show (c :: cs) ++ '.' :: f = c :: (cs ++ '.' :: f) from rfl, pyFloatVal,
    if_neg (isDigit_ne_signs hc).1, if_neg (isDigit_ne_signs hc).2.1,
    floatBody_no_exp hnoexp, mantissaVal, hpair, pyFloatParts_pair hi hf hne hfne]

lemma pyFloatVal_neg_app {i f : List Char} (hi : ∀ c ∈ i, c.isDigit = true)
    (hf : ∀ c ∈ f, c.isDigit = true) (hne : i ≠ []) (hfne : f ≠ []) :
    pyFloatVal ('-' :: (i ++ '.' :: f)) =
      some (-((digitsValAux 0 i : ℚ) + (digitsValAux 0 f : ℚ) / ((10 ^ f.length : ℕ) : ℚ))) := by
  have hnoexp : ∀ x ∈ i ++ '.' :: f, isExpChar x = false := by
    intro x hx
    rcases List.mem_append.mp hx with h | h
    · exact isDigit_not_exp (hi x h)
    · rcases List.mem_cons.mp h with rfl | h
      · decide
      · exact isDigit_not_exp (hf x h)
  have hdi : '.' ∉ i := fun h => (isDigit_ne_signs (hi _ h)).2.2 rfl
  have hdf : '.' ∉ f := fun h => (isDigit_ne_signs (hf _ h)).2.2 rfl
  rw [pyFloatVal, if_neg (by decide), if_pos rfl, floatBody_no_exp hnoexp, mantissaVal,
    splitAllOn_pair hdi hdf, pyFloatParts_pair hi hf hne hfne]
  rfl

lemma contains_eq_false_of_not_mem {l : List Char} {a : Char} (h : a ∉ l) :
    l.contains a = false := by
  simp only [List.contains, List.elem_eq_mem, decide_eq_false_iff_not]
  exact h

lemma contains_eq_true_of_mem {l : List Char} {a : Char} (h : a ∈ l) :
    l.contains a = true := by
  simp only [List.contains, List.elem_eq_mem, decide_eq_true_eq]
  exact h

lemma splitSign_plus {n amt : List Char} (hn : '+' ∉ n) (hamt : '+' ∉ amt) :
    splitSign (n ++ '+' :: amt) = some (n, amt) := by
  have hc : (n ++ '+' :: amt).contains '+' = true :=
    contains_eq_true_of_mem (List.mem_append.mpr (Or.inr (List.mem_cons_self _ _)))
  rw [splitSign, if_pos hc, splitAllOn_pair hn hamt]

lemma splitSign_minus {n amt : List Char} (hplus : '+' ∉ n ++ '-' :: amt)
    (hn : '-' ∉ n) (hamt : '-' ∉ amt) :
    splitSign (n ++ '-' :: amt) = some (n, '-' :: amt) := by
  have hc1 : (n ++ '-' :: amt).contains '+' = false := contains_eq_false_of_not_mem hplus
  have hc2 : (n ++ '-' :: amt).contains '-' = true :=
    contains_eq_true_of_mem (List.mem_append.mpr (Or.inr (List.mem_cons_self _ _)))
  rw [splitSign, if_neg (by rw [hc1]; exact Bool.false_ne_true), if_pos hc2,
    splitAllOn_pair hn hamt]

lemma nn_cast_pos {q : ℚ} (h : (q * 100).den = 1) (hq : 0 ≤ q) :
    (((q * 100).num.natAbs : ℕ) : ℚ) = q * 100 := by
  have hk := den_one_cast h
  have hnum : 0 ≤ (q * 100).num := Rat.num_nonneg.mpr (by positivity)
  have habs : ((q * 100).num.natAbs : ℤ) = (q * 100).num := Int.natAbs_of_nonneg hnum
  calc (((q * 100).num.natAbs : ℕ) : ℚ) = (((q * 100).num.natAbs : ℤ) : ℚ) :=
      (Int.cast_natCast _).symm
    _ = (((q * 100).num : ℤ) : ℚ) := by rw [habs]
    _ = q * 100 := hk

lemma nn_cast_neg {q : ℚ} (h : (q * 100).den = 1) (hq : q < 0) :
    (((q * 100).num.natAbs : ℕ) : ℚ) = -(q * 100) := by
  have hk := den_one_cast h
  have hlt : q * 100 < 0 := mul_neg_of_neg_of_pos hq (by norm_num)
  have hnum : (q * 100).num < 0 := by
    by_contra hcon
    push_neg at hcon
    exact absurd (Rat.num_nonneg.mp hcon) (not_le.mpr hlt)
  have habs : ((q * 100).num.natAbs : ℤ) = -(q * 100).num := by omega
  calc (((q * 100).num.natAbs : ℕ) : ℚ) = (((q * 100).num.natAbs : ℤ) : ℚ) :=
      (Int.cast_natCast _).symm
    _ = ((-(q * 100).num : ℤ) : ℚ) := by rw [habs]
    _ = -(q * 100) := by push_cast; rw [hk]

/-- One encoded token splits back into its name and amount, and the amount
parses back to the original value. -/
lemma tok_roundtrip (n : String) (v : PyNum)
    (hplus : '+' ∉ n.data) (hminus : '-' ∉ n.data) (hv : validPyNum v)
    (hfr : fixedRange v) :
    ∃ amt, splitSign (n.data ++ formatAmtChars v) = some (n.data, amt) ∧
      parseAmt amt = some v := by
  cases v with
  | pint z =>
    have hdig := natToChars_all_digit z.natAbs
    have hDplus : '+' ∉ natToChars z.natAbs := fun h => (isDigit_ne_signs (hdig _ h)).1 rfl
    have hDminus : '-' ∉ natToChars z.natAbs := fun h => (isDigit_ne_signs (hdig _ h)).2.1 rfl
    have hDdot : '.' ∉ natToChars z.natAbs := fun h => (isDigit_ne_signs (hdig _ h)).2.2 rfl
    by_cases hz : z < 0
    · have hfmt : formatAmtChars (.pint z) = '-' :: natToChars z.natAbs := by
        simp only [formatAmtChars, if_pos hz, List.singleton_append]
      refine ⟨'-' :: natToChars z.natAbs, ?_, ?_⟩
      · rw [hfmt]
        apply splitSign_minus ?_ hminus hDminus
        intro h
        rcases List.mem_append.mp h with h | h
        · exact hplus h
        · rcases List.mem_cons.mp h with h | h
          · exact absurd h (by decide)
          · exact hDplus h
      · have hdot : ('-' :: natToChars z.natAbs).contains '.' = false := by
          apply contains_eq_false_of_not_mem
          intro h
          rcases List.mem_cons.mp h with h | h
          · exact absurd h (by decide)
          · exact hDdot h
        rw [parseAmt, if_neg (by rw [hdot]; exact Bool.false_ne_true), pyIntVal_neg_natToChars]
        have hza : -(z.natAbs : ℤ) = z := by omega
        show some (PyNum.pint (-(z.natAbs : ℤ))) = some (PyNum.pint z)
        rw [hza]
    · have hfmt : formatAmtChars (.pint z) = '+' :: natToChars z.natAbs := by
        simp only [formatAmtChars, if_neg hz, List.singleton_append]
      refine ⟨natToChars z.natAbs, ?_, ?_⟩
      · rw [hfmt]
        exact splitSign_plus hplus hDplus
      · have hdot : (natToChars z.natAbs).contains '.' = false :=
          contains_eq_false_of_not_mem hDdot
        rw [parseAmt, if_neg (by rw [hdot]; exact Bool.false_ne_true), pyIntVal_natToChars]
        have hza : (z.natAbs : ℤ) = z := by omega
        show some (PyNum.pint ((z.natAbs : ℤ))) = some (PyNum.pint z)
        rw [hza]
  | pfloat q =>
    have hv' : (q * 100).den = 1 := hv
    obtain ⟨hlo, hhi⟩ : -(10 ^ 16 : ℚ) < q ∧ q < 10 ^ 16 := hfr
    have hnotsci : ¬(q.den = 1 ∧ 10 ^ 16 ≤ q.num.natAbs) := by
      rintro ⟨hden, hge⟩
      have hqnum : ((q.num : ℚ)) = q := by
        conv_rhs => rw [← Rat.num_div_den q]
        rw [hden]
        simp
      have habs : (10 ^ 16 : ℤ) ≤ |q.num| := by
        rw [Int.abs_eq_natAbs]
        exact_mod_cast hge
      have h2 : (10 ^ 16 : ℚ) ≤ |(q.num : ℚ)| := by
        rw [← Int.cast_abs]
        exact_mod_cast habs
      rw [hqnum] at h2
      exact absurd h2 (not_le.mpr (abs_lt.mpr ⟨hlo, hhi⟩))
    have hiDig := natToChars_all_digit ((q * 100).num.natAbs / 100)
    have hfDig := fracChars_all_digit (q * 100).num.natAbs
    have hiNe := natToChars_ne_nil ((q * 100).num.natAbs / 100)
    have hrest : ∀ c ∈ natToChars ((q * 100).num.natAbs / 100) ++
        '.' :: fracChars (q * 100).num.natAbs, c.isDigit = true ∨ c = '.' := by
      intro c hc
      rcases List.mem_append.mp hc with h | h
      · exact Or.inl (hiDig c h)
      · rcases List.mem_cons.mp h with rfl | h
        · exact Or.inr rfl
        · exact Or.inl (hfDig c h)
    have hRplus : '+' ∉ natToChars ((q * 100).num.natAbs / 100) ++
        '.' :: fracChars (q * 100).num.natAbs := by
      intro h
      rcases hrest _ h with h2 | h2
      · exact (isDigit_ne_signs h2).1 rfl
      · exact absurd h2 (by decide)
    have hRminus : '-' ∉ natToChars ((q * 100).num.natAbs / 100) ++
        '.' :: fracChars (q * 100).num.natAbs := by
      intro h
      rcases hrest _ h with h2 | h2
      · exact (isDigit_ne_signs h2).2.1 rfl
      · exact absurd h2 (by decide)
    have hdotmem : ('.' : Char) ∈ natToChars ((q * 100).num.natAbs / 100) ++
        '.' :: fracChars (q * 100).num.natAbs :=
      List.mem_append.mpr (Or.inr (List.mem_cons_self _ _))
    have hval := floatCharsVal (q * 100).num.natAbs
    by_cases hq : q < 0
    · have hfmt : formatAmtChars (.pfloat q) = '-' :: (natToChars ((q * 100).num.natAbs / 100) ++
          '.' :: fracChars (q * 100).num.natAbs) := by
        simp only [formatAmtChars, if_neg hnotsci, if_pos hq, List.append_assoc,
          List.singleton_append, List.cons_append, List.nil_append]
      refine ⟨'-' :: (natToChars ((q * 100).num.natAbs / 100) ++
        '.' :: fracChars (q * 100).num.natAbs), ?_, ?_⟩
      · rw [hfmt]
        apply splitSign_minus ?_ hminus hRminus
        intro h
        rcases List.mem_append.mp h with h | h
        · exact hplus h
        · rcases List.mem_cons.mp h with h | h
          · exact absurd h (by decide)
          · exact hRplus h
      · rw [parseAmt, if_pos (by
          rw [contains_eq_true_of_mem (List.mem_cons_of_mem _ hdotmem)]),
          pyFloatVal_neg_app hiDig hfDig hiNe (fracChars_ne_nil _)]
        have hVq : -((digitsValAux 0 (natToChars ((q * 100).num.natAbs / 100)) : ℚ) +
            (digitsValAux 0 (fracChars (q * 100).num.natAbs) : ℚ) /
              ((10 ^ (fracChars (q * 100).num.natAbs).length : ℕ) : ℚ)) = q := by
          rw [hval, nn_cast_neg hv' hq]
          ring_nf
        rw [hVq]
        simp [round2_of_den_one hv']
    · have hfmt : formatAmtChars (.pfloat q) = '+' :: (natToChars ((q * 100).num.natAbs / 100) ++
          '.' :: fracChars (q * 100).num.natAbs) := by
        simp only [formatAmtChars, if_neg hnotsci, if_neg hq, List.append_assoc,
          List.singleton_append, List.cons_append, List.nil_append]
      refine ⟨natToChars ((q * 100).num.natAbs / 100) ++
        '.' :: fracChars (q * 100).num.natAbs, ?_, ?_⟩
      · rw [hfmt]
        exact splitSign_plus hplus hRplus
      · rw [parseAmt, if_pos (by rw [contains_eq_true_of_mem hdotmem]),
          pyFloatVal_app hiDig hfDig hiNe (fracChars_ne_nil _)]
        have hVq : (digitsValAux 0 (natToChars ((q * 100).num.natAbs / 100)) : ℚ) +
            (digitsValAux 0 (fracChars (q * 100).num.natAbs) : ℚ) /
              ((10 ^ (fracChars (q * 100).num.natAbs).length : ℕ) : ℚ) = q := by
          rw [hval, nn_cast_pos hv' (not_lt.mp hq)]
          ring_nf
        rw [hVq]
        simp [round2_of_den_one hv']

lemma formatAmt_ne_nil (v : PyNum) : formatAmtChars v ≠ [] := by
  cases v with
  | pint z => by_cases hz : z < 0 <;> simp [formatAmtChars, hz]
  | pfloat q =>
    by_cases hq : q < 0 <;> simp [formatAmtChars, hq] <;> split <;> simp

lemma sciOfDigits_no_space {ds : List Char} (h : ∀ c ∈ ds, c.isDigit = true) (k : ℕ) :
    ∀ c ∈ sciOfDigits ds k, pyIsSpace c = false := by
  intro c hc
  cases ds with
  | nil => simp [sciOfDigits] at hc
  | cons d rest =>
    have hd := h d (List.mem_cons_self d rest)
    by_cases hr : rest = []
    · subst hr
      simp only [sciOfDigits, if_pos rfl] at hc
      rcases List.mem_cons.mp hc with rfl | hc
      · exact isDigit_not_space hd
      · rcases List.mem_cons.mp hc with rfl | hc
        · decide
        · rcases List.mem_cons.mp hc with rfl | hc
          · decide
          · exact isDigit_not_space (natToChars_all_digit _ _ hc)
    · simp only [sciOfDigits, if_neg hr] at hc
      rcases List.mem_cons.mp hc with rfl | hc
      · exact isDigit_not_space hd
      · rcases List.mem_cons.mp hc with rfl | hc
        · decide
        · rcases List.mem_append.mp hc with h2 | h2
          · exact isDigit_not_space (h _ (List.mem_cons_of_mem d h2))
          · rcases List.mem_cons.mp h2 with rfl | h2
            · decide
            · rcases List.mem_cons.mp h2 with rfl | h2
              · decide
              · exact isDigit_not_space (natToChars_all_digit _ _ h2)

lemma sciChars_no_space (n : ℕ) : ∀ c ∈ sciChars n, pyIsSpace c = false :=
  sciOfDigits_no_space (natToChars_all_digit _) _

lemma formatAmt_no_space (v : PyNum) : ∀ c ∈ formatAmtChars v, pyIsSpace c = false := by
  intro c hc
  cases v with
  | pint z =>
    simp only [formatAmtChars] at hc
    rcases List.mem_append.mp hc with h | h
    · by_cases hz : z < 0
      · rw [if_pos hz] at h
        simp only [List.mem_singleton] at h
        subst h; decide
      · rw [if_neg hz] at h
        simp only [List.mem_singleton] at h
        subst h; decide
    · exact isDigit_not_space (natToChars_all_digit _ _ h)
  | pfloat q =>
    by_cases hs : q.den = 1 ∧ 10 ^ 16 ≤ q.num.natAbs
    · simp only [formatAmtChars, if_pos hs] at hc
      rcases List.mem_append.mp hc with h | h
      · by_cases hq : q < 0
        · rw [if_pos hq] at h
          simp only [List.mem_singleton] at h
          subst h; decide
        · rw [if_neg hq] at h
          simp only [List.mem_singleton] at h
          subst h; decide
      · exact sciChars_no_space _ c h
    · simp only [formatAmtChars, if_neg hs, List.append_assoc] at hc
      rcases List.mem_append.mp hc with h | h
      · by_cases hq : q < 0
        · rw [if_pos hq] at h
          simp only [List.mem_singleton] at h
          subst h; decide
        · rw [if_neg hq] at h
          simp only [List.mem_singleton] at h
          subst h; decide
      · rcases List.mem_append.mp h with h | h
        · exact isDigit_not_space (natToChars_all_digit _ _ h)
        · rcases List.mem_cons.mp h with rfl | h
          · decide
          · exact isDigit_not_space (fracChars_all_digit _ _ h)

lemma encode_tokens (m : List (String × PyNum))
    (hm : ∀ p ∈ m, ∀ c ∈ p.1.data, pyIsSpace c = false) :
    pyTokens (encodeAccounts m) = m.map (fun p => p.1.data ++ formatAmtChars p.2) := by
  show wordsAux (joinSpaceChars (m.map (fun p => p.1.data ++ formatAmtChars p.2))) [] = _
  apply pyTokens_join
  intro p hp
  obtain ⟨q, hq, rfl⟩ := List.mem_map.mp hp
  constructor
  · intro hnil
    exact formatAmt_ne_nil q.2 (List.append_eq_nil.mp hnil).2
  · intro c hc
    rcases List.mem_append.mp hc with h | h
    · exact hm q hq c h
    · exact formatAmt_no_space q.2 c h

lemma saLoop_encode :
    ∀ (m ret : List (String × PyNum)),
      (ret.map Prod.fst ++ m.map Prod.fst).Nodup →
      (∀ p ∈ m, '+' ∉ p.1.data ∧ '-' ∉ p.1.data ∧ reservedNames.contains p.1 = false ∧
        validPyNum p.2 ∧ fixedRange p.2) →
      saLoop ret (m.map (fun p => p.1.data ++ formatAmtChars p.2)) = some (ret ++ m) := by
  intro m
  induction m with
  | nil => intro ret _ _; simp [saLoop]
  | cons p m ih =>
    intro ret hnd hcond
    obtain ⟨nm, v⟩ := p
    obtain ⟨hplus, hminus, hres, hv, hfr⟩ := hcond (nm, v) (List.mem_cons_self _ _)
    obtain ⟨amt, hsp, hpa⟩ := tok_roundtrip nm v hplus hminus hv hfr
    have hany : ret.any (fun x => x.1 = (⟨nm.data⟩ : String)) = false := by
      rw [string_eta]
      by_contra h
      rw [Bool.not_eq_false, List.any_eq_true] at h
      obtain ⟨x, hx, hx1⟩ := h
      simp only [decide_eq_true_eq] at hx1
      have hmem : nm ∈ ret.map Prod.fst := List.mem_map.mpr ⟨x, hx, hx1⟩
      exact (List.nodup_append.mp hnd).2.2 hmem (by simp)
    have hstep : saStep ret (nm.data ++ formatAmtChars v) = some (ret ++ [(nm, v)]) := by
      simp only [saStep, hsp]
      rw [if_neg (by rw [hany, string_eta, hres]; simp), hpa, string_eta]
    rw [List.map_cons]
    show (match saStep ret (nm.data ++ formatAmtChars v) with
      | none => none
      | some r2 => saLoop r2 (m.map (fun (p : String × PyNum) => p.1.data ++ formatAmtChars p.2)))
      = _
    rw [hstep]
    show saLoop (ret ++ [(nm, v)])
      (m.map (fun (p : String × PyNum) => p.1.data ++ formatAmtChars p.2)) = _
    rw [ih (ret ++ [(nm, v)]) (by simpa using hnd)
      (fun p hp => hcond p (List.mem_cons_of_mem _ hp))]
    simp

/-- C4 (amended): decoding the encoding returns the original mapping: for
every non-empty accounts map whose names contain no sign characters and no
Python whitespace, are pairwise distinct, and are not reserved column
names, and whose amounts are integers, or floats with at most two decimal
places and magnitude below `1e16` — the bound at which Python float
formatting switches to scientific notation and the round trip fails, see
the counterexample theorem below — `split_accounts` applied to the
space-joined, explicit-sign encoding of the map (the
`" ".join(f"{name}{amt:+}")` of view_table.py) yields the map back. -/
theorem decode_encode_roundtrip (m : List (String × PyNum))
    (_hne : m ≠ [])
    (hkeys : (m.map Prod.fst).Nodup)
    (hsp : ∀ p ∈ m, ∀ c ∈ p.1.data, pyIsSpace c = false)
    (hvalid : ∀ p ∈ m, '+' ∉ p.1.data ∧ '-' ∉ p.1.data ∧
      reservedNames.contains p.1 = false ∧ validPyNum p.2 ∧ fixedRange p.2) :
    split_accounts (encodeAccounts m) = m := by
  rw [split_accounts, encode_tokens m hsp,
    saLoop_encode m [] (by simpa using hkeys) hvalid]
  simp

/-- C4 witness: the round trip applied to a concrete two-account map with an
integer and a two-decimal float amount. -/
theorem decode_encode_roundtrip_witness :
    split_accounts (encodeAccounts [("checking", PyNum.pint 5), ("x", PyNum.pfloat (5 / 2))]) =
      [("checking", PyNum.pint 5), ("x", PyNum.pfloat (5 / 2))] :=
  decode_encode_roundtrip _ (by decide) (by decide) (by decide) (by decide)

/-- C4 (counterexample to the unbounded round trip): `1e16` is a valid float
amount with no decimal places, but Python formats it in scientific notation
— `f"{1e16:+}"` is `"+1e+16"` — and decoding the resulting token `a+1e+16`
fails, because splitting it at every `+` yields three parts; the round trip
therefore returns the empty mapping, not the original map. -/
theorem decode_encode_sci_counterexample :
    validPyNum (PyNum.pfloat 10000000000000000) ∧
    encodeAccounts [("a", PyNum.pfloat 10000000000000000)] = "a+1e+16" ∧
    split_accounts "a+1e+16" = [] ∧
    ([] : List (String × PyNum)) ≠ [("a", PyNum.pfloat 10000000000000000)] := by decide

lemma pyTokens_single {l : List Char} (hne : l ≠ [])
    (hns : ∀ c ∈ l, pyIsSpace c = false) : pyTokens ⟨l⟩ = [l] := by
  show wordsAux l [] = [l]
  rw [wordsAux_no_space l [] hns]
  simp [hne]

/-- C10: a token of the form `name+-digits` has both sign characters, yet it
is accepted because the split at `+` happens first and the remainder
`-digits` parses as a negative integer: for every valid name `n` (no `+`, no
whitespace, not reserved) and nonempty digit string `d`, decoding
`n ++ "+-" ++ d` yields the single entry `(n, -value d)`; likewise
`"a+-2.5"` decodes to the float `-2.5`. -/
theorem split_accounts_double_sign (n : String) (d : List Char)
    (hplus : '+' ∉ n.data) (hsp : ∀ c ∈ n.data, pyIsSpace c = false)
    (hres : reservedNames.contains n = false)
    (hd : d ≠ []) (hdig : d.all Char.isDigit = true) :
    split_accounts ⟨n.data ++ '+' :: '-' :: d⟩ = [(n, PyNum.pint (-(digitsValAux 0 d : ℤ)))]
    ∧ split_accounts "a+-2.5" = [("a", PyNum.pfloat (-(5 / 2)))] := by
  have hdigits : ∀ c ∈ d, c.isDigit = true := by
    intro c hc
    exact List.all_eq_true.mp hdig c hc
  refine ⟨?_, by decide⟩
  have hns : ∀ c ∈ n.data ++ '+' :: '-' :: d, pyIsSpace c = false := by
    intro c hc
    rcases List.mem_append.mp hc with h | h
    · exact hsp c h
    · rcases List.mem_cons.mp h with rfl | h
      · decide
      · rcases List.mem_cons.mp h with rfl | h
        · decide
        · exact isDigit_not_space (hdigits c h)
  have hne : n.data ++ '+' :: '-' :: d ≠ [] := by cases n.data <;> simp
  have htok : pyTokens ⟨n.data ++ '+' :: '-' :: d⟩ = [n.data ++ '+' :: '-' :: d] :=
    pyTokens_single hne hns
  have hminus : '+' ∉ '-' :: d := by
    intro h
    rcases List.mem_cons.mp h with h | h
    · cases h
    · exact (isDigit_ne_signs (hdigits _ h)).1 rfl
  have hcontains : (n.data ++ '+' :: '-' :: d).contains '+' = true := by
    simp only [List.contains, List.elem_eq_mem, decide_eq_true_eq]
    simp
  have hsplit : splitSign (n.data ++ '+' :: '-' :: d) = some (n.data, '-' :: d) := by
    rw [splitSign, if_pos hcontains, splitAllOn_pair hplus hminus]
  have hdotd : '.' ∉ d := fun h => (isDigit_ne_signs (hdigits _ h)).2.2 rfl
  have hparse : parseAmt ('-' :: d) = some (PyNum.pint (-(digitsValAux 0 d : ℤ))) := by
    rw [parseAmt, if_neg (by simp [hdotd]), pyIntVal, if_neg (by decide), if_pos rfl,
      digitsVal_all_digit hd hdigits]
    rfl
  rw [split_accounts, htok]
  simp only [saLoop, saStep, hsplit, string_eta, List.any_nil, Bool.false_or, hres,
    Bool.false_eq_true, if_false, hparse, List.nil_append, Option.getD_some]

/-- C10 witness: the theorem applied at the concrete token `"a+-25"`, and the
float example. -/
theorem split_accounts_double_sign_witness :
    split_accounts "a+-25" = [("a", PyNum.pint (-25))] ∧
    split_accounts "a+-2.5" = [("a", PyNum.pfloat (-(5 / 2)))] :=
  ⟨(split_accounts_double_sign "a" ['2', '5'] (by decide) (by decide) (by decide)
      (by decide) (by decide)).1, (split_accounts_double_sign "a" ['2', '5'] (by decide)
      (by decide) (by decide) (by decide) (by decide)).2⟩

lemma charListLe_total : ∀ x y : List Char, charListLe x y = true ∨ charListLe y x = true := by
  intro x
  induction x with
  | nil => intro y; exact Or.inl rfl
  | cons a as ih =>
    intro y
    cases y with
    | nil => exact Or.inr rfl
    | cons b bs =>
      rcases Nat.lt_trichotomy a.toNat b.toNat with h | h | h
      · left; simp [charListLe, h]
      · rcases ih bs with h2 | h2
        · left; simp [charListLe, h, h2]
        · right; simp [charListLe, h.symm, h2]
      · right; simp [charListLe, h]

lemma charListLe_trans :
    ∀ x y z : List Char, charListLe x y = true → charListLe y z = true →
      charListLe x z = true := by
  intro x
  induction x with
  | nil => intro y z _ _; rfl
  | cons a as ih =>
    intro y z hxy hyz
    cases y with
    | nil => simp [charListLe] at hxy
    | cons b bs =>
      cases z with
      | nil => simp [charListLe] at hyz
      | cons c cs =>
        simp only [charListLe, Bool.or_eq_true, Bool.and_eq_true, decide_eq_true_eq,
          beq_iff_eq] at hxy hyz ⊢
        rcases hxy with h1 | ⟨h1, h1t⟩ <;> rcases hyz with h2 | ⟨h2, h2t⟩
        · left; omega
        · left; omega
        · left; omega
        · right; exact ⟨by omega, ih bs cs h1t h2t⟩

lemma charListLe_head_false {c : Char} {cs rest : List Char} (hc : c.toNat ≠ 0) :
    charListLe (c :: cs) (Char.ofNat 0 :: rest) = false := by
  simp [charListLe, hc]

instance : IsTotal Entry entryLe := ⟨fun _ _ => charListLe_total _ _⟩

instance : IsTrans Entry entryLe := ⟨fun _ _ _ => charListLe_trans _ _ _⟩

/-- C8 counterexample: the sort key compares the desc to `"balance"`
case-sensitively, so an entry whose desc equals `"balance"` only under
case-insensitive comparison (here `"Balance"`) gets no NUL prefix and is not
placed first: with descs `"Apple"` and `"Balance"`, `sort_cfs` puts
`"Apple"` first. -/
theorem sort_cfs_ci_counterexample :
    strLowerAscii "Balance" = "balance" ∧
    (sort_cfs [⟨"Apple", "a+1", 0, "r", none⟩, ⟨"Balance", "a+1", 0, "r", none⟩]).map
      (fun e => e.desc) = ["Apple", "Balance"] := by
  constructor
  · decide
  · decide

/-- C8 (amended): if some entry desc is exactly `"balance"` (case-sensitive,
as the code compares) and every desc is nonempty and does not start with the
NUL character (both guaranteed by the schema for real descs), then
`sort_cfs` places a `"balance"` entry first; the output is a permutation of
the input, sorted (stably) by the NUL-prefixed key order. -/
theorem sort_cfs_balance_first (cfs : List Entry)
    (hbal : ∃ e ∈ cfs, e.desc = "balance")
    (hdesc : ∀ e ∈ cfs, e.desc.data ≠ [] ∧ ∀ c ∈ e.desc.data.take 1, c.toNat ≠ 0) :
    (∃ e, (sort_cfs cfs).head? = some e ∧ e.desc = "balance") ∧
    (sort_cfs cfs).Perm cfs ∧ List.Pairwise entryLe (sort_cfs cfs) := by
  have hperm : (sort_cfs cfs).Perm cfs := List.perm_insertionSort entryLe cfs
  have hsorted : List.Sorted entryLe (sort_cfs cfs) := List.sorted_insertionSort entryLe cfs
  refine ⟨?_, hperm, hsorted⟩
  obtain ⟨bal, hbmem, hbdesc⟩ := hbal
  have hbmem2 : bal ∈ sort_cfs cfs := hperm.mem_iff.mpr hbmem
  cases hs : sort_cfs cfs with
  | nil => rw [hs] at hbmem2; cases hbmem2
  | cons h0 t =>
    refine ⟨h0, rfl, ?_⟩
    by_contra hne
    have h0mem : h0 ∈ cfs := hperm.mem_iff.mp (hs ▸ List.mem_cons_self h0 t)
    obtain ⟨hnil, hnul⟩ := hdesc h0 h0mem
    have hbal_t : bal ∈ t := by
      rw [hs] at hbmem2
      rcases List.mem_cons.mp hbmem2 with rfl | hbt
      · exact absurd hbdesc hne
      · exact hbt
    have hle : entryLe h0 bal := by
      rw [hs] at hsorted
      exact (List.sorted_cons.mp hsorted).1 bal hbal_t
    obtain ⟨c, cs, hdata⟩ : ∃ c cs, h0.desc.data = c :: cs := by
      cases hd : h0.desc.data with
      | nil => exact absurd hd hnil
      | cons c cs => exact ⟨c, cs, rfl⟩
    have hc0 : c.toNat ≠ 0 := hnul c (by rw [hdata]; simp)
    have hkey0 : sortKey h0.desc = c :: cs := by rw [sortKey, if_neg hne, hdata]
    have hkeyb : sortKey bal.desc = Char.ofNat 0 :: "balance".data := by
      rw [sortKey, if_pos hbdesc, hbdesc]
    rw [entryLe, hkey0, hkeyb, charListLe_head_false hc0] at hle
    cases hle

/-- C8 witness: the amended theorem applied to a concrete list containing a
`"balance"` entry. -/
theorem sort_cfs_balance_first_witness :
    (sort_cfs [⟨"zed", "a+1", 0, "r", none⟩, ⟨"balance", "a+1", 0, "r", none⟩]).Perm
      [⟨"zed", "a+1", 0, "r", none⟩, ⟨"balance", "a+1", 0, "r", none⟩] :=
  (sort_cfs_balance_first _ (by decide) (by decide)).2.1

/-- C5: the yearly ordinal-weekday branch of the classifier returns the wrong
enum member.  For the string `"FREQ=YEARLY;BYMONTH=6;BYDAY=2FR"` — exactly
one `BYMONTH`, exactly one ordinal weekday, no `BYMONTHDAY`, no plain
`BYDAY`, none of `WKST`/`BYSETPOS`/`BYYEARDAY`/`BYWEEKNO` — the code reaches
utils.py line 271 and returns `RruleType.BYWEEKDAY_WEEKLY`, not the
`RruleType.BYWEEKDAY_YEARLY` the claim (and the spec, and the caller's
`byweekday_yearly` branch) expect. -/
theorem parse_rrulestr_yearly_byday_bug :
    (parse_rrulestr "FREQ=YEARLY;BYMONTH=6;BYDAY=2FR" 1 1 0).map Prod.snd =
      some RruleType.BYWEEKDAY_WEEKLY ∧
    (parse_rrulestr "FREQ=YEARLY;BYMONTH=6;BYDAY=2FR" 1 1 0).map Prod.snd ≠
      some RruleType.BYWEEKDAY_YEARLY :=
  ⟨by decide, by decide⟩

lemma sortDedup_ne_nil {l : List ℤ} (h : l ≠ []) : sortDedup l ≠ [] := by
  obtain ⟨x, hx⟩ := List.exists_mem_of_ne_nil l h
  have hmem : x ∈ sortDedup l := by
    rw [sortDedup, List.mem_dedup]
    exact (List.perm_insertionSort _ l).mem_iff.mpr hx
  exact List.ne_nil_of_mem hmem

lemma buildRrule_bysetpos {f : RawFields} {dtM dtD dtW : ℕ} {p : ParsedRrule}
    (h : buildRrule f dtM dtD dtW = some p) : p.bysetpos = sortDedup f.bysetpos := by
  cases hf : f.freq with
  | none => simp only [buildRrule, hf] at h; cases h
  | some fr =>
    simp only [buildRrule, hf] at h
    by_cases hbad : (f.bysetpos.any fun p => decide (p = 0 ∨ p < -366 ∨ 366 < p)) = true
    · rw [if_pos hbad] at h; cases h
    · rw [if_neg hbad] at h
      cases h
      rfl

lemma classifyRrule_bysetpos {p : ParsedRrule} (h : p.bysetpos ≠ []) :
    classifyRrule p = .ADVANCED := by
  rw [classifyRrule, if_pos (Or.inr (Or.inl h))]

/-- C9: classifying `"FREQ=SECONDLY"` terminates without an exception and
yields the Advanced outcome (with no rule object), for any start date; any
string whose parsed parameters include a `BYSETPOS` either fails rule
construction (a `ValueError` in dateutil, i.e. not parseable) or classifies
as Advanced, never as a representable class; and `validate_rrule` rejects
the disallowed frequency with an error string. -/
theorem parse_rrulestr_secondly_bysetpos_safe :
    (∀ dtM dtD dtW : ℕ,
      parse_rrulestr "FREQ=SECONDLY" dtM dtD dtW = some (none, RruleType.ADVANCED)) ∧
    (∀ (s : String) (f : RawFields) (dtM dtD dtW : ℕ),
      parseRruleFields s = some f → f.bysetpos ≠ [] →
      parse_rrulestr s dtM dtD dtW = none ∨
        parse_rrulestr s dtM dtD dtW = some (none, RruleType.ADVANCED)) ∧
    validate_rrule (some "FREQ=SECONDLY") = some "invalid rrulestr" := by
  refine ⟨?_, ?_, by decide⟩
  · intro dtM dtD dtW
    rfl
  · intro s f dtM dtD dtW hpf hbs
    rw [parse_rrulestr, hpf]
    simp only [Option.some_bind]
    cases hb : buildRrule f dtM dtD dtW with
    | none => left; rfl
    | some p =>
      right
      have hadv : classifyRrule p = .ADVANCED := by
        apply classifyRrule_bysetpos
        rw [buildRrule_bysetpos hb]
        exact sortDedup_ne_nil hbs
      rw [Option.map_some', hadv]

/-- C9 witness: the BYSETPOS part applied to the concrete parseable string
`"FREQ=DAILY;BYSETPOS=2"`. -/
theorem parse_rrulestr_secondly_bysetpos_safe_witness :
    parse_rrulestr "FREQ=DAILY;BYSETPOS=2" 1 1 0 = none ∨
      parse_rrulestr "FREQ=DAILY;BYSETPOS=2" 1 1 0 = some (none, RruleType.ADVANCED) :=
  parse_rrulestr_secondly_bysetpos_safe.2.1 "FREQ=DAILY;BYSETPOS=2"
    { freq := some Freq.daily, interval := none, count := none, untilGiven := false,
      wkst := none, bysetpos := [2], byyearday := [], byweekno := [], bymonth := [],
      bymonthday := [], byday := [], byeaster := [] } 1 1 0 (by decide) (by decide)

lemma cumAux_nil (acc : String → ℚ) : cumAux acc [] = [] := rfl

lemma cumAux_cons (acc : String → ℚ) (r : XRow) (rs : List XRow) :
    cumAux acc (r :: rs) =
      (r.date, fun a => acc a + rowDelta r a) :: cumAux (fun a => acc a + rowDelta r a) rs := rfl

lemma dropDup_nil {β : Type} : dropDupKeepLast ([] : List (Int × β)) = [] := rfl

lemma dropDup_cons {β : Type} (x : Int × β) (xs : List (Int × β)) :
    dropDupKeepLast (x :: xs) =
      if xs.any (fun y => y.1 == x.1) then dropDupKeepLast xs else x :: dropDupKeepLast xs := rfl

lemma sumDeltas_nil (a : String) : sumDeltas [] a = 0 := rfl

lemma sumDeltas_cons (r : XRow) (l : List XRow) (a : String) :
    sumDeltas (r :: l) a = rowDelta r a + sumDeltas l a := by
  simp [sumDeltas]

lemma cumAux_keys : ∀ (s : List XRow) (acc : String → ℚ),
    (cumAux acc s).map Prod.fst = s.map (fun r => r.date) := by
  intro s
  induction s with
  | nil => intro acc; rfl
  | cons r rs ih => intro acc; rw [cumAux_cons, List.map_cons, List.map_cons, ih]

lemma cumAux_pairwise : ∀ (s : List XRow) (acc : String → ℚ), List.Pairwise dateLe s →
    List.Pairwise (fun p q : Int × (String → ℚ) => p.1 ≤ q.1) (cumAux acc s) := by
  intro s
  induction s with
  | nil => intro acc _; exact List.Pairwise.nil
  | cons r rs ih =>
    intro acc hp
    obtain ⟨hr, hrs⟩ := List.pairwise_cons.mp hp
    rw [cumAux_cons]
    refine List.pairwise_cons.mpr ⟨?_, ih _ hrs⟩
    intro y hy
    have : y.1 ∈ (cumAux (fun a => acc a + rowDelta r a) rs).map Prod.fst :=
      List.mem_map.mpr ⟨y, hy, rfl⟩
    rw [cumAux_keys] at this
    obtain ⟨z, hz, hz1⟩ := List.mem_map.mp this
    exact hz1 ▸ hr z hz

lemma dropDup_subset {β : Type} : ∀ (l : List (Int × β)) (x : Int × β),
    x ∈ dropDupKeepLast l → x ∈ l := by
  intro l
  induction l with
  | nil => intro x hx; rw [dropDup_nil] at hx; cases hx
  | cons y ys ih =>
    intro x hx
    rw [dropDup_cons] at hx
    by_cases h : ys.any (fun z => z.1 == y.1) = true
    · rw [if_pos h] at hx
      exact List.mem_cons_of_mem _ (ih x hx)
    · rw [if_neg h] at hx
      rcases List.mem_cons.mp hx with rfl | hx2
      · exact List.mem_cons_self _ _
      · exact List.mem_cons_of_mem _ (ih x hx2)

lemma dropDup_keys {β : Type} : ∀ (l : List (Int × β)) (k : Int),
    k ∈ l.map Prod.fst → k ∈ (dropDupKeepLast l).map Prod.fst := by
  intro l
  induction l with
  | nil => intro k hk; cases hk
  | cons y ys ih =>
    intro k hk
    rw [dropDup_cons]
    by_cases h : ys.any (fun z => z.1 == y.1) = true
    · rw [if_pos h]
      rcases List.mem_map.mp hk with ⟨x, hx, hx1⟩
      rcases List.mem_cons.mp hx with rfl | hx2
      · obtain ⟨z, hz, hz1⟩ := List.any_eq_true.mp h
        simp only [beq_iff_eq] at hz1
        exact ih k (List.mem_map.mpr ⟨z, hz, hx1 ▸ hz1⟩)
      · exact ih k (List.mem_map.mpr ⟨x, hx2, hx1⟩)
    · rw [if_neg h]
      rcases List.mem_map.mp hk with ⟨x, hx, hx1⟩
      rcases List.mem_cons.mp hx with rfl | hx2
      · exact List.mem_map.mpr ⟨x, List.mem_cons_self _ _, hx1⟩
      · exact List.mem_cons_of_mem _ (ih k (List.mem_map.mpr ⟨x, hx2, hx1⟩))

lemma dropDup_sorted_strict {β : Type} : ∀ l : List (Int × β),
    List.Pairwise (fun p q => p.1 ≤ q.1) l →
    List.Pairwise (fun p q => p.1 < q.1) (dropDupKeepLast l) := by
  intro l
  induction l with
  | nil => intro _; rw [dropDup_nil]; exact List.Pairwise.nil
  | cons y ys ih =>
    intro hp
    obtain ⟨hy, hys⟩ := List.pairwise_cons.mp hp
    rw [dropDup_cons]
    by_cases h : ys.any (fun z => z.1 == y.1) = true
    · rw [if_pos h]; exact ih hys
    · rw [if_neg h]
      refine List.pairwise_cons.mpr ⟨?_, ih hys⟩
      intro z hz
      have hzmem : z ∈ ys := dropDup_subset ys z hz
      have hle : y.1 ≤ z.1 := hy z hzmem
      have hne : z.1 ≠ y.1 := by
        intro heq
        apply h
        rw [List.any_eq_true]
        exact ⟨z, hzmem, by simp [heq]⟩
      exact lt_of_le_of_ne hle (fun he => hne he.symm)

lemma cumAux_dropDup_val :
    ∀ s : List XRow, List.Pairwise dateLe s → ∀ (acc : String → ℚ) (d : Int) (f : String → ℚ),
      (d, f) ∈ dropDupKeepLast (cumAux acc s) →
      ∀ a, f a = acc a + sumDeltas (s.filter (fun r => decide (r.date ≤ d))) a := by
  intro s
  induction s with
  | nil =>
    intro _ acc d f hmem
    rw [cumAux_nil, dropDup_nil] at hmem
    cases hmem
  | cons r rs ih =>
    intro hp acc d f hmem a
    obtain ⟨hr, hrs⟩ := List.pairwise_cons.mp hp
    rw [cumAux_cons, dropDup_cons] at hmem
    have hdate_of_tail : ∀ g : String → ℚ,
        (d, g) ∈ dropDupKeepLast (cumAux (fun a => acc a + rowDelta r a) rs) →
        ∃ z ∈ rs, z.date = d := by
      intro g hg
      have hmem2 := dropDup_subset _ _ hg
      have : d ∈ (cumAux (fun a => acc a + rowDelta r a) rs).map Prod.fst :=
        List.mem_map.mpr ⟨(d, g), hmem2, rfl⟩
      rw [cumAux_keys] at this
      obtain ⟨z, hz, hz1⟩ := List.mem_map.mp this
      exact ⟨z, hz, hz1⟩
    have htail : ∀ g : String → ℚ,
        (d, g) ∈ dropDupKeepLast (cumAux (fun a => acc a + rowDelta r a) rs) →
        g a = acc a + sumDeltas ((r :: rs).filter (fun x => decide (x.date ≤ d))) a := by
      intro g hg
      obtain ⟨z, hz, hz1⟩ := hdate_of_tail g hg
      have hrd : r.date ≤ d := hz1 ▸ hr z hz
      have := ih hrs (fun a => acc a + rowDelta r a) d g hg a
      rw [List.filter_cons, if_pos (by simpa using hrd), sumDeltas_cons]
      rw [this]
      ring
    by_cases hdup : ((cumAux (fun a => acc a + rowDelta r a) rs).any
        (fun y => y.1 == ((r.date, fun a => acc a + rowDelta r a) : Int × (String → ℚ)).1)) = true
    · rw [if_pos hdup] at hmem
      exact htail f hmem
    · rw [if_neg hdup] at hmem
      rcases List.mem_cons.mp hmem with heq | hmem2
      · have hd : d = r.date := congrArg Prod.fst heq
        have hf : f = fun a => acc a + rowDelta r a := congrArg Prod.snd heq
        rw [hf, hd]
        have hfilter : rs.filter (fun x => decide (x.date ≤ r.date)) = [] := by
          rw [List.filter_eq_nil_iff]
          intro z hz
          simp only [decide_eq_true_eq, not_le]
          have hge : r.date ≤ z.date := hr z hz
          rcases lt_or_eq_of_le hge with h2 | h2
          · exact h2
          · exfalso
            apply hdup
            have hz2 : z.date ∈ (cumAux (fun a => acc a + rowDelta r a) rs).map Prod.fst := by
              rw [cumAux_keys]
              exact List.mem_map.mpr ⟨z, hz, rfl⟩
            obtain ⟨y, hy, hy1⟩ := List.mem_map.mp hz2
            rw [List.any_eq_true]
            exact ⟨y, hy, by simp [hy1, h2]⟩
        rw [List.filter_cons, if_pos (by simp), hfilter, sumDeltas_cons, sumDeltas_nil]
        ring
      · exact htail f hmem2

lemma ledgerOf_strict (rows : List XRow) :
    List.Pairwise (fun p q : Int × (String → ℚ) => p.1 < q.1) (ledgerOf rows) := by
  have hs : List.Sorted dateLe (sortRows rows) := List.sorted_insertionSort _ _
  have hcum := cumAux_pairwise (sortRows rows) (fun _ => 0) hs
  have hstrict := dropDup_sorted_strict _ hcum
  rw [ledgerOf]
  exact List.Pairwise.map _ (fun a b h => h) hstrict

lemma ledgerOf_val {rows : List XRow} {p : Int × (String → ℚ)} (hp : p ∈ ledgerOf rows)
    (a : String) :
    p.2 a = round2 (sumDeltas (rows.filter (fun r => decide (r.date ≤ p.1))) a) := by
  rw [ledgerOf] at hp
  obtain ⟨q, hq, hq1⟩ := List.mem_map.mp hp
  have hs : List.Sorted dateLe (sortRows rows) := List.sorted_insertionSort _ _
  have hval := cumAux_dropDup_val (sortRows rows) hs (fun _ => 0) q.1 q.2 hq a
  have hp1 : p.1 = q.1 := by rw [← hq1]
  have hp2 : p.2 a = round2 (q.2 a) := by rw [← hq1]
  rw [hp2, hp1, hval]
  congr 1
  show (0 : ℚ) + sumDeltas ((sortRows rows).filter (fun r => decide (r.date ≤ q.1))) a = _
  rw [zero_add]
  exact List.Perm.sum_eq
    (((List.perm_insertionSort dateLe rows).filter (fun r => decide (r.date ≤ q.1))).map _)

lemma ledgerOf_keys {rows : List XRow} {r : XRow} (hr : r ∈ rows) :
    ∃ p ∈ ledgerOf rows, p.1 = r.date := by
  have hperm : (sortRows rows).Perm rows := List.perm_insertionSort _ _
  have h1 : r.date ∈ (sortRows rows).map (fun r => r.date) :=
    List.mem_map.mpr ⟨r, hperm.mem_iff.mpr hr, rfl⟩
  rw [← cumAux_keys (sortRows rows) (fun _ => 0)] at h1
  have h2 := dropDup_keys _ _ h1
  obtain ⟨q, hq, hq1⟩ := List.mem_map.mp h2
  exact ⟨(q.1, fun a => round2 (q.2 a)), List.mem_map.mpr ⟨q, hq, rfl⟩, hq1⟩

/-- C2: the ledger fold of utils.py lines 414-425 (decode each row, fill
missing accounts with 0, sort by date, take running sums, keep the last row
per date, round to two decimals) produces rows in strictly increasing date
order, and the value of every account on every output date equals the
rounded sum of that account's per-row deltas over all rows dated up to and
including that date, with a missing account contributing 0 and the rounding
applied once, after the cumulative sum, not before. -/
theorem ledger_cumulative_sum (rows : List XRow) :
    List.Pairwise (fun p q : Int × (String → ℚ) => p.1 < q.1) (ledgerOf rows)
    ∧ ∀ p ∈ ledgerOf rows, ∀ a : String,
        p.2 a = round2 (sumDeltas (rows.filter (fun r => decide (r.date ≤ p.1))) a) :=
  ⟨ledgerOf_strict rows, fun _ hp a => ledgerOf_val hp a⟩

/-- C2 witness: the cumulative-value clause applied to the first ledger row
of a concrete one-row input. -/
theorem ledger_cumulative_sum_witness :
    ((ledgerOf [⟨"rent", "checking-1200", 0⟩]).get ⟨0, by decide⟩).2 "checking" = -1200 := by
  have h := (ledger_cumulative_sum [⟨"rent", "checking-1200", 0⟩]).2
    ((ledgerOf [⟨"rent", "checking-1200", 0⟩]).get ⟨0, by decide⟩)
    (List.get_mem _ _ _) "checking"
  rw [h]
  decide

lemma pairwise_lt_filter_le_one {β : Type} :
    ∀ (l : List (Int × β)) (d : Int), List.Pairwise (fun p q => p.1 < q.1) l →
      (l.filter (fun x => x.1 == d)).length ≤ 1 := by
  intro l
  induction l with
  | nil => intro d _; simp
  | cons y ys ih =>
    intro d hp
    obtain ⟨hy, hys⟩ := List.pairwise_cons.mp hp
    rw [List.filter_cons]
    by_cases h : (y.1 == d) = true
    · rw [if_pos h]
      simp only [beq_iff_eq] at h
      have hnil : ys.filter (fun x => x.1 == d) = [] := by
        rw [List.filter_eq_nil_iff]
        intro z hz
        have := hy z hz
        simp only [beq_iff_eq]
        omega
      rw [hnil]
      simp
    · rw [if_neg h]
      exact ih d hys

lemma sumDeltas_split (l : List XRow) (d : Int) (a : String) :
    sumDeltas (l.filter (fun r => decide (r.date ≤ d))) a =
      sumDeltas (l.filter (fun r => decide (r.date < d))) a +
      sumDeltas (l.filter (fun r => r.date == d)) a := by
  induction l with
  | nil => simp [sumDeltas_nil]
  | cons r rs ih =>
    rcases lt_trichotomy r.date d with h | h | h
    · rw [List.filter_cons, List.filter_cons, List.filter_cons,
        if_pos (by simp [le_of_lt h]), if_pos (by simpa using h),
        if_neg (by simp [ne_of_lt h]), sumDeltas_cons, sumDeltas_cons, ih]
      ring
    · rw [List.filter_cons, List.filter_cons, List.filter_cons,
        if_pos (by simp [le_of_eq h]), if_neg (by simp [h]),
        if_pos (by simp [h]), sumDeltas_cons, sumDeltas_cons, ih]
      ring
    · rw [List.filter_cons, List.filter_cons, List.filter_cons,
        if_neg (by simp [not_le.mpr h]), if_neg (by simp [not_lt.mpr (le_of_lt h)]),
        if_neg (by simp; omega), ih]

/-- C6: every calendar date appears in at most one forecast output row; every
resolved occurrence row's date has an output row; each output row's
per-account value is the rounded sum of all strictly-earlier deltas plus the
summed deltas of every occurrence landing on that same date (so several
occurrences on one date collapse into a single row with their deltas
summed); and the row's activity string is the `"; "`-joined concatenation of
`desc ++ ": " ++ accounts` over the occurrences contributing on that date. -/
theorem generate_forecast_collapse (occ : Entry → List Int) (cfs : List Entry) :
    (∀ d : Int, (((generate_forecast occ cfs).2).filter (fun x => x.1 == d)).length ≤ 1)
    ∧ (∀ r ∈ forecastRows occ cfs, ∃ x ∈ (generate_forecast occ cfs).2, x.1 = r.date)
    ∧ (∀ x ∈ (generate_forecast occ cfs).2, ∀ a : String,
        x.2.1 a = round2 (
          sumDeltas ((forecastRows occ cfs).filter (fun r => decide (r.date < x.1))) a +
          sumDeltas ((forecastRows occ cfs).filter (fun r => r.date == x.1)) a))
    ∧ (∀ x ∈ (generate_forecast occ cfs).2, x.2.2 = String.intercalate "; "
        (((forecastRows occ cfs).filter (fun r => r.date == x.1)).map
          (fun r => r.desc ++ ": " ++ r.accounts))) := by
  refine ⟨?_, ?_, ?_, ?_⟩
  · intro d
    apply pairwise_lt_filter_le_one
    rw [generate_forecast_snd]
    exact List.Pairwise.map _ (fun a b h => h) (ledgerOf_strict (forecastRows occ cfs))
  · intro r hr
    obtain ⟨p, hp, hp1⟩ := ledgerOf_keys hr
    refine ⟨(p.1, p.2, activityFor (forecastRows occ cfs) p.1), ?_, hp1⟩
    rw [generate_forecast_snd]
    exact List.mem_map.mpr ⟨p, hp, rfl⟩
  · intro x hx a
    rw [generate_forecast_snd] at hx
    obtain ⟨p, hp, hp1⟩ := List.mem_map.mp hx
    have h1 : x.2.1 = p.2 := by rw [← hp1]
    have h2 : x.1 = p.1 := by rw [← hp1]
    rw [h1, h2, ledgerOf_val hp a, sumDeltas_split]
  · intro x hx
    rw [generate_forecast_snd] at hx
    obtain ⟨p, hp, hp1⟩ := List.mem_map.mp hx
    have h1 : x.2.2 = activityFor (forecastRows occ cfs) p.1 := by rw [← hp1]
    have h2 : x.1 = p.1 := by rw [← hp1]
    rw [h1, h2, activityFor]

/-- C6 witness: two entries firing on the same date produce one row whose
account value is the rounded sum of both deltas. -/
theorem generate_forecast_collapse_witness :
    (((generate_forecast (fun e => [e.dtstart])
        [⟨"a", "x+1", 0, "r", none⟩, ⟨"b", "x+2", 0, "r", none⟩]).2).get
      ⟨0, by decide⟩).2.1 "x" = 3 := by
  have h := (generate_forecast_collapse (fun e => [e.dtstart])
      [⟨"a", "x+1", 0, "r", none⟩, ⟨"b", "x+2", 0, "r", none⟩]).2.2.1
    (((generate_forecast (fun e => [e.dtstart])
        [⟨"a", "x+1", 0, "r", none⟩, ⟨"b", "x+2", 0, "r", none⟩]).2).get ⟨0, by decide⟩)
    (List.get_mem _ _ _) "x"
  rw [h]
  decide

lemma ovStep_eq (st : List XRow × List XRow) (o : XRow) :
    ovStep st o = (st.1.filter
      (fun r => !(r.desc == (stripOv o).desc && r.date == (stripOv o).date)),
      st.2 ++ [stripOv o]) := rfl

lemma stripOv_date (o : XRow) : (stripOv o).date = o.date := rfl

lemma matchedBy_nil (r : XRow) : matchedBy [] r = false := rfl

lemma matchedBy_cons (o : XRow) (os : List XRow) (r : XRow) :
    matchedBy (o :: os) r =
      ((r.desc == (stripOv o).desc && r.date == o.date) || matchedBy os r) := by
  simp [matchedBy]

lemma matchedBy_iff (ovs : List XRow) (r : XRow) :
    matchedBy ovs r = true ↔
      ∃ o ∈ ovs, (r.desc == (stripOv o).desc && r.date == o.date) = true := by
  rw [matchedBy, List.any_eq_true]

lemma matchedBy_perm {ovs1 ovs2 : List XRow} (h : ovs1.Perm ovs2) (r : XRow) :
    matchedBy ovs1 r = matchedBy ovs2 r := by
  rw [Bool.eq_iff_iff, matchedBy_iff, matchedBy_iff]
  constructor
  · rintro ⟨o, ho, hp⟩
    exact ⟨o, h.mem_iff.mp ho, hp⟩
  · rintro ⟨o, ho, hp⟩
    exact ⟨o, h.mem_iff.mpr ho, hp⟩

lemma ovFold : ∀ (ovs : List XRow) (reg acc : List XRow),
    ovs.foldl ovStep (reg, acc) =
      (reg.filter (fun r => !matchedBy ovs r), acc ++ ovs.map stripOv) := by
  intro ovs
  induction ovs with
  | nil =>
    intro reg acc
    simp only [List.foldl_nil, List.map_nil, List.append_nil]
    rw [show (fun r => !matchedBy [] r) = fun _ => true from funext (fun r => by
      rw [matchedBy_nil]; rfl)]
    rw [List.filter_true]
  | cons o os ih =>
    intro reg acc
    rw [List.foldl_cons, ovStep_eq, ih]
    refine Prod.ext ?_ ?_
    · show (reg.filter _).filter _ = _
      rw [List.filter_filter]
      apply List.filter_congr
      intro r _
      rw [matchedBy_cons, stripOv_date, Bool.not_or, Bool.and_comm]
    · show acc ++ [stripOv o] ++ os.map stripOv = acc ++ (o :: os).map stripOv
      simp

/-- C1: override resolution removes, for each override row, every regular
row whose (desc, date) equals (the override's desc with the `"_override"`
suffix stripped, the override's date), and the override rows themselves
contribute under the stripped desc: the resolved row list is exactly the
unmatched regular rows followed by the stripped override rows.  The
resolution is order-independent: permuting the override rows leaves the
surviving regular rows identical and permutes only the contributed override
rows.  Concretely, a regular entry `"rent"` with accounts `"checking-1000"`
on date 0 together with a one-shot override entry `"rent_override"` with the
same date and accounts `"checking-1200"` yields a single ledger row whose
`checking` value is -1200, not -2200. -/
theorem resolveOverrides_spec :
    (∀ rows : List XRow, resolveOverrides rows =
      (regularRows rows).filter (fun r => !matchedBy (ovRows rows) r) ++
        (ovRows rows).map stripOv)
    ∧ (∀ (rows ovs2 : List XRow), ovs2.Perm (ovRows rows) →
        (ovs2.foldl ovStep (regularRows rows, [])).1 =
          ((ovRows rows).foldl ovStep (regularRows rows, [])).1 ∧
        ((ovs2.foldl ovStep (regularRows rows, [])).2).Perm
          (((ovRows rows).foldl ovStep (regularRows rows, [])).2))
    ∧ ((generate_forecast (fun e => [e.dtstart])
        [⟨"rent", "checking-1000", 0, "FREQ=DAILY;COUNT=1", none⟩,
         ⟨"rent_override", "checking-1200", 0, "FREQ=DAILY;COUNT=1", none⟩]).2).map
        (fun p => (p.1, p.2.1 "checking", p.2.2)) = [(0, -1200, "rent: checking-1200")] := by
  refine ⟨?_, ?_, by decide⟩
  · intro rows
    rw [resolveOverrides]
    rw [ovFold]
    simp
  · intro rows ovs2 hperm
    rw [ovFold, ovFold]
    constructor
    · apply List.filter_congr
      intro r _
      rw [matchedBy_perm hperm r]
    · simp only [List.nil_append]
      exact hperm.map stripOv

/-- C1 witness: the order-independence clause applied to a concrete row list
with two override rows, swapped. -/
theorem resolveOverrides_spec_witness :
    (([⟨"b_override", "x+2", 0⟩, ⟨"a_override", "x+1", 0⟩] :
        List XRow).foldl ovStep (regularRows [⟨"a", "x+5", 0⟩, ⟨"a_override", "x+1", 0⟩,
          ⟨"b_override", "x+2", 0⟩], [])).1 =
      ((ovRows [⟨"a", "x+5", 0⟩, ⟨"a_override", "x+1", 0⟩, ⟨"b_override", "x+2", 0⟩]).foldl
        ovStep (regularRows [⟨"a", "x+5", 0⟩, ⟨"a_override", "x+1", 0⟩,
          ⟨"b_override", "x+2", 0⟩], [])).1 :=
  (resolveOverrides_spec.2.1 [⟨"a", "x+5", 0⟩, ⟨"a_override", "x+1", 0⟩, ⟨"b_override", "x+2", 0⟩]
    [⟨"b_override", "x+2", 0⟩, ⟨"a_override", "x+1", 0⟩] (by decide)).1

/-- C7 counterexample: `generate_forecast` writes the occurrence-date column
into the frame it is given (`cfs["date"] = ...`, utils.py line 383), so the
input frame is not unchanged after the call: on a one-entry frame with no
`date` column, the frame after the call differs from the input. -/
theorem generate_forecast_mutates :
    (generate_forecast (fun e => [e.dtstart])
      [⟨"balance", "checking+0", 0, "FREQ=DAILY;COUNT=1", none⟩]).1 ≠
      [⟨"balance", "checking+0", 0, "FREQ=DAILY;COUNT=1", none⟩] := by decide

/-- C7 (amended): the only in-place effect of `generate_forecast` on its
input frame is the written `date` column — erasing that column recovers the
input rows exactly (desc, accounts, dtstart, rrule and row count are
untouched) — and the computation is deterministic: equal inputs produce
equal outputs, both the mutated frame and the ledger. -/
theorem generate_forecast_readonly_amended (occ : Entry → List Int) (cfs : List Entry) :
    ((generate_forecast occ cfs).1.map (fun e => { e with date := none }) =
      cfs.map (fun e => { e with date := none }))
    ∧ (generate_forecast occ cfs).1.length = cfs.length
    ∧ (∀ (occ2 : Entry → List Int) (cfs2 : List Entry), occ = occ2 → cfs = cfs2 →
        generate_forecast occ cfs = generate_forecast occ2 cfs2) := by
  have hfst : (generate_forecast occ cfs).1 =
      cfs.map (fun e => { e with date := some (occ e) }) := rfl
  refine ⟨?_, ?_, ?_⟩
  · rw [hfst, List.map_map]
    rfl
  · rw [hfst, List.length_map]
  · rintro occ2 cfs2 rfl rfl
    rfl

/-- C7 witness: determinism applied at a concrete input. -/
theorem generate_forecast_readonly_amended_witness :
    generate_forecast (fun e => [e.dtstart]) [⟨"a", "x+1", 0, "r", none⟩] =
      generate_forecast (fun e => [e.dtstart]) [⟨"a", "x+1", 0, "r", none⟩] :=
  (generate_forecast_readonly_amended (fun e => [e.dtstart])
    [⟨"a", "x+1", 0, "r", none⟩]).2.2 _ _ rfl rfl
